import Mathlib

/-!
# proglog: the record store and the offset index of a log segment

A shallow embedding of `internal/log/store.go` and `internal/log/index.go`.

Modelling conventions.

* A byte is a `UInt8`; the contents of a file, of a slice and of the memory
  mapping are `List UInt8`.
* Go's `uint64`, `uint32` and `int64` values are `Nat` / `Int`; every
  operation that can wrap carries its `% 2 ^ 64` explicitly and every
  conversion (`uint32(in)`, `int64(pos)`) is spelled out.
* Calls into the operating system and into library code (`os.File`,
  `bufio.Writer`, `encoding/binary`, `gommap`) are modelled by their effect on
  the file contents.  Input/output is reliable: a call fails only for a reason
  that its arguments determine (a read past the end of the file, a negative
  offset or length, a range of bytes that ends beyond the largest `int64`
  offset, a mapping of length zero).
* Memory: `store.Read` takes it that `make([]byte, n)` returns for every `n`
  that fits Go's `int`; `store.ReadIn` is the same method with the outcome of
  the allocation given by an environment.
* The store's file is written in append mode, as the size bookkeeping of
  `newStore` presupposes: `os.File.Write` adds its bytes at the end of the file.
* A Go run-time panic is the `Except.error` outcome of an operation.
-/

set_option autoImplicit false

namespace proglog

/-! ## Errors and panics -/

/-- Error values that the operations return. -/
inductive Error where
  /-- The value `io.EOF`. -/
  | EOF
  /-- The `PathError` of `os.File.ReadAt` for a negative offset. -/
  | negativeOffset
  /-- The system error `EINVAL` (invalid argument). -/
  | EINVAL
deriving DecidableEq, Repr

/-- Go run-time panics that the embedded code can raise. -/
inductive Panic where
  /-- A slice expression `s[lo:hi]` with bounds out of range. -/
  | sliceBounds
  /-- A `make([]byte, n)` that does not return: the length is out of range,
  or the memory is not there and the process dies. -/
  | makeslice
deriving DecidableEq, Repr

deriving instance DecidableEq for Except

/-! ## Machine integers and `encoding/binary` (`enc = binary.BigEndian`) -/

/-- The conversion `int64(x)` of a `uint64` value. -/
def toInt64 (x : Nat) : Int :=
  if x % 2 ^ 64 < 2 ^ 63 then ((x % 2 ^ 64 : Nat) : Int) else ((x % 2 ^ 64 : Nat) : Int) - 2 ^ 64

/-- The conversion `uint32(x)` of an `int64` value. -/
def int64ToUint32 (x : Int) : Nat :=
  (x % 2 ^ 32).toNat

/-- The four bytes `enc.PutUint32` stores: `byte(v >> 24)`, `byte(v >> 16)`,
`byte(v >> 8)`, `byte(v)`. -/
def PutUint32 (v : Nat) : List UInt8 :=
  [UInt8.ofNat (v / 2 ^ 24), UInt8.ofNat (v / 2 ^ 16), UInt8.ofNat (v / 2 ^ 8), UInt8.ofNat v]

/-- The eight bytes `enc.PutUint64` stores, most significant first. -/
def PutUint64 (v : Nat) : List UInt8 :=
  [UInt8.ofNat (v / 2 ^ 56), UInt8.ofNat (v / 2 ^ 48), UInt8.ofNat (v / 2 ^ 40),
   UInt8.ofNat (v / 2 ^ 32), UInt8.ofNat (v / 2 ^ 24), UInt8.ofNat (v / 2 ^ 16),
   UInt8.ofNat (v / 2 ^ 8), UInt8.ofNat v]

/-- The value `enc.Uint32(b)`:
`uint32(b[3]) | uint32(b[2])<<8 | uint32(b[1])<<16 | uint32(b[0])<<24`.
The shifted bytes do not overlap, so the bitwise or is a sum. -/
def Uint32 (b : List UInt8) : Nat :=
  (b.getD 3 0).toNat + (b.getD 2 0).toNat * 2 ^ 8 + (b.getD 1 0).toNat * 2 ^ 16
    + (b.getD 0 0).toNat * 2 ^ 24

/-- The value `enc.Uint64(b)`, the big-endian reading of `b[0..8]`. -/
def Uint64 (b : List UInt8) : Nat :=
  (b.getD 7 0).toNat + (b.getD 6 0).toNat * 2 ^ 8 + (b.getD 5 0).toNat * 2 ^ 16
    + (b.getD 4 0).toNat * 2 ^ 24 + (b.getD 3 0).toNat * 2 ^ 32 + (b.getD 2 0).toNat * 2 ^ 40
    + (b.getD 1 0).toNat * 2 ^ 48 + (b.getD 0 0).toNat * 2 ^ 56

/-! ## Files -/

/-- The contents of a file after `Truncate(n)`: cut to `n` bytes, or extended
with zero bytes up to `n`. -/
def truncate (data : List UInt8) (n : Nat) : List UInt8 :=
  data.take n ++ List.replicate (n - data.length) 0

/-- The call `os.File.ReadAt(b, off)` with `len(b) = len` on a file holding
`data`: the bytes read and the error.  A negative offset is an error; a buffer
of length zero is full at once; `pread` rejects with `EINVAL` a range
`[off, off + len)` that ends beyond the largest `int64` offset, `2 ^ 63 - 1`;
otherwise the loop reads until `b` is full and reports `io.EOF` when the file
ends first. -/
def File.ReadAt (data : List UInt8) (len : Nat) (off : Int) : List UInt8 × Option Error :=
  if off < 0 then ([], some Error.negativeOffset)
  else if 0 < len ∧ 2 ^ 63 ≤ off.toNat + len then ([], some Error.EINVAL)
  else
    let got := (data.drop off.toNat).take len
    if got.length < len then (got, some Error.EOF) else (got, none)

/-! ## `bufio.Writer` -/

/-- The size of the buffer `bufio.NewWriter` allocates. -/
def defaultBufSize : Nat := 4096

/-- A `bufio.Writer` over a file: `wr` is the contents of the file it writes
to, `buf` the bytes `b.buf[0:b.n]` accepted but not yet written. -/
structure Writer where
  wr : List UInt8
  buf : List UInt8
deriving DecidableEq, Repr

/-- The method `Available`: the free bytes of the buffer. -/
def Writer.Available (b : Writer) : Nat := defaultBufSize - b.buf.length

/-- The method `Flush`: writes the buffered bytes to the file. -/
def Writer.Flush (b : Writer) : Writer :=
  if b.buf.length = 0 then b else { wr := b.wr ++ b.buf, buf := [] }

/-- The method `Write(p)`: the writer afterwards and the count `nn` of bytes
accepted.  The loop `for len(p) > b.Available()` runs at most twice: with a
non-empty buffer it fills the buffer and flushes it; with an empty buffer it
writes all of `p` straight to the file.  What then remains is copied into the
buffer. -/
def Writer.Write (b : Writer) (p : List UInt8) : Writer × Nat :=
  if p.length ≤ b.Available then ({ b with buf := b.buf ++ p }, p.length)
  else if b.buf.length = 0 then ({ b with wr := b.wr ++ p }, p.length)
  else
    let n := b.Available
    let b1 := Writer.Flush { b with buf := b.buf ++ p.take n }
    let q := p.drop n
    if q.length ≤ b1.Available then ({ b1 with buf := b1.buf ++ q }, p.length)
    else ({ b1 with wr := b1.wr ++ q }, p.length)

/-! ## The store (`store.go`) -/

/-- The constant `lenWidth`: the bytes that hold a record's length. -/
def lenWidth : Nat := 8

/-- The struct `store`: `File` is the contents of the file, `buf` the bytes
held by the buffered writer over that file, `size` the size counter. -/
structure store where
  File : List UInt8
  buf : List UInt8
  size : Nat
deriving DecidableEq, Repr

/-- The function `newStore` on a file holding `f`. -/
def newStore (f : List UInt8) : store :=
  { File := f, buf := [], size := f.length % 2 ^ 64 }

/-- The method `store.Append`: the returned `(n, pos, err)` and the store
afterwards. -/
def store.Append (s : store) (p : List UInt8) : (Nat × Nat × Option Error) × store :=
  let pos := s.size
  let b1 := (Writer.Write { wr := s.File, buf := s.buf } (PutUint64 (p.length % 2 ^ 64))).1
  let r := Writer.Write b1 p
  let w := r.2 + lenWidth
  ((w % 2 ^ 64, pos, none), { File := r.1.wr, buf := r.1.buf, size := (s.size + w % 2 ^ 64) % 2 ^ 64 })

/-- The method `store.Read` with the allocation made explicit: `mem n` tells
whether `make([]byte, n)` returns, for an `n` that fits Go's `int` (the runtime
refuses a length above its limit with a panic, and the process dies when the
memory is not there).  The returned `([]byte, error)`, or the outcome of a
`make` that does not return, and the store afterwards (its buffer flushed). -/
def store.ReadIn (mem : Nat → Bool) (s : store) (pos : Nat) :
    Except Panic (Option (List UInt8) × Option Error) × store :=
  let b := Writer.Flush { wr := s.File, buf := s.buf }
  let s1 : store := { s with File := b.wr, buf := b.buf }
  match File.ReadAt s1.File lenWidth (toInt64 pos) with
  | (_, some e) => (Except.ok (none, some e), s1)
  | (size, none) =>
    let n := Uint64 size
    if 2 ^ 63 ≤ n ∨ mem n = false then (Except.error Panic.makeslice, s1)
    else
      match File.ReadAt s1.File n (toInt64 ((pos + lenWidth) % 2 ^ 64)) with
      | (_, some e) => (Except.ok (none, some e), s1)
      | (b, none) => (Except.ok (some b, none), s1)

/-- The method `store.Read` where memory is never short: the returned
`([]byte, error)`, or a panic, and the store afterwards (its buffer flushed).
`make([]byte, n)` panics when `n` does not fit Go's `int` and returns
otherwise; it is `store.ReadIn` with every allocation granted. -/
def store.Read (s : store) (pos : Nat) :
    Except Panic (Option (List UInt8) × Option Error) × store :=
  let b := Writer.Flush { wr := s.File, buf := s.buf }
  let s1 : store := { s with File := b.wr, buf := b.buf }
  match File.ReadAt s1.File lenWidth (toInt64 pos) with
  | (_, some e) => (Except.ok (none, some e), s1)
  | (size, none) =>
    let n := Uint64 size
    if 2 ^ 63 ≤ n then (Except.error Panic.makeslice, s1)
    else
      match File.ReadAt s1.File n (toInt64 ((pos + lenWidth) % 2 ^ 64)) with
      | (_, some e) => (Except.ok (none, some e), s1)
      | (b, none) => (Except.ok (some b, none), s1)

/-- The method `store.ReadAt` with `len(p) = len`: the bytes read, the error,
and the store afterwards. -/
def store.ReadAt (s : store) (len : Nat) (off : Int) : (List UInt8 × Option Error) × store :=
  let b := Writer.Flush { wr := s.File, buf := s.buf }
  let s1 : store := { s with File := b.wr, buf := b.buf }
  (File.ReadAt s1.File len off, s1)

/-- The method `store.Close`: the contents of the closed file. -/
def store.Close (s : store) : List UInt8 × Option Error :=
  ((Writer.Flush { wr := s.File, buf := s.buf }).wr, none)

/-- A call that reads from the store. -/
inductive ReadCall where
  | Read (pos : Nat)
  | ReadAt (len : Nat) (off : Int)
deriving DecidableEq, Repr

/-- The store after one reading call. -/
def store.afterCall (s : store) : ReadCall → store
  | ReadCall.Read pos => (s.Read pos).2
  | ReadCall.ReadAt len off => (s.ReadAt len off).2

/-- The store after a sequence of reading calls. -/
def store.afterCalls (s : store) (cs : List ReadCall) : store :=
  cs.foldl store.afterCall s

/-- The states of a store: those reached from `newStore` by calls of `Append`,
`Read` and `ReadAt`. -/
inductive store.Reachable : store → Prop where
  | init (f : List UInt8) : store.Reachable (newStore f)
  | append (s : store) (p : List UInt8) : store.Reachable s → store.Reachable (s.Append p).2
  | call (s : store) (c : ReadCall) : store.Reachable s → store.Reachable (s.afterCall c)

/-- The bytes of the string "hello". -/
def hello : List UInt8 := [104, 101, 108, 108, 111]

/-- The bytes of the string "world". -/
def world : List UInt8 := [119, 111, 114, 108, 100]

/-! ## The index (`index.go`) -/

/-- The variable `offWidth`: the bytes of an entry's offset. -/
def offWidth : Nat := 4

/-- The variable `posWidth`: the bytes of an entry's position. -/
def posWidth : Nat := 8

/-- The variable `entWidth`: the bytes of an entry. -/
def entWidth : Nat := offWidth + posWidth

/-- The struct `index`: `mmap` is the memory mapping of the file, `size` the
size counter.  The mapping is shared (`MAP_SHARED`), so while the index is open
the bytes of the file are the bytes of the mapping. -/
structure index where
  mmap : List UInt8
  size : Nat
deriving DecidableEq, Repr

/-- The slice expression `s[lo:hi]`; it panics unless `lo <= hi <= len(s)`. -/
def slice (s : List UInt8) (lo hi : Nat) : Except Panic (List UInt8) :=
  if lo ≤ hi ∧ hi ≤ s.length then Except.ok ((s.drop lo).take (hi - lo))
  else Except.error Panic.sliceBounds

/-- The bytes of `s` after `bs` is stored through a slice of `s` that starts at
`lo` and has the length of `bs`. -/
def writeAt (s : List UInt8) (lo : Nat) (bs : List UInt8) : List UInt8 :=
  s.take lo ++ bs ++ s.drop (lo + bs.length)

/-- The function `newIndex` on a file holding `f`, with `c` the value of
`c.Segment.MaxIndexBytes` (a `uint64`).  `os.Truncate` rejects a negative
length and `gommap.Map` cannot map a file of length zero. -/
def newIndex (f : List UInt8) (c : Nat) : Except Error index :=
  let size := f.length % 2 ^ 64
  if toInt64 c < 0 then Except.error Error.EINVAL
  else
    let file := truncate f (toInt64 c).toNat
    if file.length = 0 then Except.error Error.EINVAL
    else Except.ok { mmap := file, size := size }

/-- The method `index.Read`: the returned `(out, pos, err)`, or a panic. -/
def index.Read (i : index) (inp : Int) : Except Panic (Nat × Nat × Option Error) :=
  if i.size = 0 then Except.ok (0, 0, some Error.EOF)
  else
    let out :=
      if inp = -1 then ((i.size / entWidth + 2 ^ 64 - 1) % 2 ^ 64) % 2 ^ 32
      else int64ToUint32 inp
    let pos := (out * entWidth) % 2 ^ 64
    if i.size < (pos + entWidth) % 2 ^ 64 then Except.ok (0, 0, some Error.EOF)
    else
      match slice i.mmap pos ((pos + offWidth) % 2 ^ 64),
          slice i.mmap ((pos + offWidth) % 2 ^ 64) ((pos + entWidth) % 2 ^ 64) with
      | Except.ok b1, Except.ok b2 => Except.ok (Uint32 b1, Uint64 b2, none)
      | _, _ => Except.error Panic.sliceBounds

/-- The method `index.Write`: the index afterwards and the returned error, or
a panic. -/
def index.Write (i : index) (off pos : Nat) : Except Panic (index × Option Error) :=
  if i.mmap.length < (i.size + entWidth) % 2 ^ 64 then Except.ok (i, some Error.EOF)
  else
    match slice i.mmap i.size ((i.size + offWidth) % 2 ^ 64) with
    | Except.error e => Except.error e
    | Except.ok _ =>
      let m1 := writeAt i.mmap i.size (PutUint32 off)
      match slice m1 ((i.size + offWidth) % 2 ^ 64) ((i.size + entWidth) % 2 ^ 64) with
      | Except.error e => Except.error e
      | Except.ok _ =>
        let m2 := writeAt m1 ((i.size + offWidth) % 2 ^ 64) (PutUint64 pos)
        Except.ok ({ mmap := m2, size := (i.size + entWidth) % 2 ^ 64 }, none)

/-- The method `index.Close`: the contents of the closed file.  The two syncs
leave the bytes as they are, `Truncate(int64(i.size))` sets the length. -/
def index.Close (i : index) : Except Error (List UInt8) :=
  if toInt64 i.size < 0 then Except.error Error.EINVAL
  else Except.ok (truncate i.mmap (toInt64 i.size).toNat)

/-- A caller that issues the `Write` calls for `ps` in order and stops at the
first call that does not succeed. -/
def index.WriteAll (i : index) : List (Nat × Nat) → Except Panic (index × Option Error)
  | [] => Except.ok (i, none)
  | e :: ps =>
    match i.Write e.1 e.2 with
    | Except.ok (j, none) => j.WriteAll ps
    | r => r

/-- The states reached from the index `i0` by calls of `Write` (a call of
`Read` leaves the index as it is). -/
inductive index.ReachableFrom (i0 : index) : index → Prop where
  | refl : index.ReachableFrom i0 i0
  | write (i j : index) (off pos : Nat) (e : Option Error) :
      index.ReachableFrom i0 i → i.Write off pos = Except.ok (j, e) → index.ReachableFrom i0 j

/-- The states of an index: those reached from a successful `newIndex`, on a
file whose length `os.Stat` can report (an `int64`), by calls of `Write`. -/
def index.Reachable (i : index) : Prop :=
  ∃ f c i0, f.length < 2 ^ 63 ∧ newIndex f c = Except.ok i0 ∧ index.ReachableFrom i0 i

/-- The bytes of the entries `ps` laid out one after the other: for each entry
the four bytes of its offset, then the eight bytes of its position. -/
def entriesBytes : List (Nat × Nat) → List UInt8
  | [] => []
  | e :: ps => PutUint32 e.1 ++ PutUint64 e.2 ++ entriesBytes ps

/-- The entry number that `index.Read` computes from its argument: the value
of `out` before the bounds check. -/
def index.entryNumber (i : index) (inp : Int) : Nat :=
  if inp = -1 then ((i.size / entWidth + 2 ^ 64 - 1) % 2 ^ 64) % 2 ^ 32 else int64ToUint32 inp

/-- A capacity with room for `2 ^ 32 + 1` entries. -/
def wrapCapacity : Nat := 12 * (2 ^ 32 + 1)

/-- A sequence of `2 ^ 32 + 1` entries: the entry `(7, 7)`, then `2 ^ 32` times
the entry `(0, 0)`. -/
def wrapEntries : List (Nat × Nat) := (7, 7) :: List.replicate (2 ^ 32) (0, 0)

/-! ## Sequences of calls on the store, the file format, the steps of `Close` -/

/-- One frame of the store file: the length of the payload as eight big-endian
bytes, then the bytes of the payload. -/
def frame (p : List UInt8) : List UInt8 := PutUint64 p.length ++ p

/-- The frames of the payloads `ps`, one after the other, nothing in between. -/
def frames : List (List UInt8) → List UInt8
  | [] => []
  | p :: ps => frame p ++ frames ps

/-- A call on the store: an `Append`, or a call that reads. -/
inductive StoreCall where
  | Append (p : List UInt8)
  | Reading (c : ReadCall)
deriving DecidableEq, Repr

/-- The store after one call. -/
def store.afterStoreCall (s : store) : StoreCall → store
  | StoreCall.Append p => (s.Append p).2
  | StoreCall.Reading c => s.afterCall c

/-- The store after a sequence of calls. -/
def store.run (s : store) (cs : List StoreCall) : store :=
  cs.foldl store.afterStoreCall s

/-- The payloads that a sequence of calls appends, in order. -/
def appended : List StoreCall → List (List UInt8)
  | [] => []
  | StoreCall.Append p :: cs => p :: appended cs
  | StoreCall.Reading _ :: cs => appended cs

/-- The effects of `index.Close`: `i.mmap.Sync(gommap.MS_SYNC)`,
`i.file.Sync()`, `i.file.Truncate(n)` and `i.file.Close()`. -/
inductive CloseStep where
  | mmapSync
  | fileSync
  | fileTruncate (n : Int)
  | fileClose
deriving DecidableEq, Repr

/-- The method `index.Close` step by step, against an environment `env` that
gives the error each call returns (`none` when the call succeeds): the calls
made, in order, and the error returned. -/
def index.CloseSteps (i : index) (env : CloseStep → Option Error) :
    List CloseStep × Option Error :=
  match env CloseStep.mmapSync with
  | some e => ([CloseStep.mmapSync], some e)
  | none =>
    match env CloseStep.fileSync with
    | some e => ([CloseStep.mmapSync, CloseStep.fileSync], some e)
    | none =>
      match env (CloseStep.fileTruncate (toInt64 i.size)) with
      | some e =>
        ([CloseStep.mmapSync, CloseStep.fileSync, CloseStep.fileTruncate (toInt64 i.size)],
          some e)
      | none =>
        ([CloseStep.mmapSync, CloseStep.fileSync, CloseStep.fileTruncate (toInt64 i.size),
          CloseStep.fileClose], env CloseStep.fileClose)

/-! ## Lemmas on bytes and lists -/

theorem toNat_ofNat_byte (n : Nat) : (UInt8.ofNat n).toNat = n % 256 := rfl

theorem Uint32_PutUint32 (v : Nat) (h : v < 2 ^ 32) : Uint32 (PutUint32 v) = v := by
  simp only [Uint32, PutUint32, List.getD_cons_zero, List.getD_cons_succ, toNat_ofNat_byte]
  norm_num at h ⊢
  omega

theorem Uint64_PutUint64 (v : Nat) (h : v < 2 ^ 64) : Uint64 (PutUint64 v) = v := by
  simp only [Uint64, PutUint64, List.getD_cons_zero, List.getD_cons_succ, toNat_ofNat_byte]
  norm_num at h ⊢
  omega

theorem PutUint32_length (v : Nat) : (PutUint32 v).length = 4 := rfl

theorem PutUint64_length (v : Nat) : (PutUint64 v).length = 8 := rfl

theorem toInt64_of_lt (x : Nat) (h : x < 2 ^ 63) : toInt64 x = (x : Int) := by
  have h1 : x % 2 ^ 64 = x := Nat.mod_eq_of_lt (by omega)
  simp only [toInt64, h1, if_pos h]

/-- Reading `len` bytes that the file holds at offset `off`. -/
theorem File.ReadAt_mid (a b c : List UInt8) (h : a.length + b.length < 2 ^ 63) :
    File.ReadAt (a ++ b ++ c) b.length (a.length : Int) = (b, none) := by
  unfold File.ReadAt
  rw [if_neg (by omega), if_neg (by simp only [Int.toNat_ofNat]; omega)]
  simp

/-! ## Lemmas on the buffered writer and the store -/

theorem Writer.Flush_wr (b : Writer) : (Writer.Flush b).wr = b.wr ++ b.buf := by
  unfold Writer.Flush
  split
  · next h => simp [List.length_eq_zero.mp h]
  · rfl

theorem Writer.Flush_buf (b : Writer) : (Writer.Flush b).buf = [] := by
  unfold Writer.Flush
  split
  · next h => exact List.length_eq_zero.mp h
  · rfl

/-- What `Write` accepts is all of `p`. -/
theorem Writer.Write_count (b : Writer) (p : List UInt8) : (Writer.Write b p).2 = p.length := by
  unfold Writer.Write
  split
  · rfl
  · split
    · rfl
    · simp only []
      split <;> rfl

/-- The file followed by the buffer grows by exactly `p`. -/
theorem Writer.Write_content (b : Writer) (p : List UInt8) :
    (Writer.Write b p).1.wr ++ (Writer.Write b p).1.buf = b.wr ++ b.buf ++ p := by
  unfold Writer.Write
  split
  · simp
  · split
    · next h => simp [List.length_eq_zero.mp h]
    · simp only []
      split
      · simp [Writer.Flush_wr, Writer.Flush_buf]
      · simp [Writer.Flush_wr, Writer.Flush_buf]

/-- The bytes of one frame: the length of the payload, then the payload. -/
theorem store.Append_content (s : store) (p : List UInt8) :
    (s.Append p).2.File ++ (s.Append p).2.buf
      = s.File ++ s.buf ++ PutUint64 (p.length % 2 ^ 64) ++ p := by
  simp only [store.Append, Writer.Write_content]

theorem store.Append_result (s : store) (p : List UInt8) :
    (s.Append p).1 = ((p.length + lenWidth) % 2 ^ 64, s.size, none) := by
  simp only [store.Append, Writer.Write_count]

theorem store.Append_size (s : store) (p : List UInt8) :
    (s.Append p).2.size = (s.size + (p.length + lenWidth) % 2 ^ 64) % 2 ^ 64 := by
  simp only [store.Append, Writer.Write_count]

theorem store.afterCall_size (s : store) (c : ReadCall) : (s.afterCall c).size = s.size := by
  cases c with
  | Read pos =>
    simp only [store.afterCall, store.Read]
    split
    · rfl
    · split
      · rfl
      · split <;> rfl
  | ReadAt len off => rfl

theorem store.afterCall_content (s : store) (c : ReadCall) :
    (s.afterCall c).File ++ (s.afterCall c).buf = s.File ++ s.buf := by
  cases c with
  | Read pos =>
    simp only [store.afterCall, store.Read]
    split
    · simp [Writer.Flush_wr, Writer.Flush_buf]
    · split
      · simp [Writer.Flush_wr, Writer.Flush_buf]
      · split <;> simp [Writer.Flush_wr, Writer.Flush_buf]
  | ReadAt len off => simp [store.afterCall, store.ReadAt, Writer.Flush_wr, Writer.Flush_buf]

theorem store.afterCalls_size (cs : List ReadCall) (s : store) :
    (s.afterCalls cs).size = s.size := by
  induction cs generalizing s with
  | nil => rfl
  | cons c cs ih =>
    simp only [store.afterCalls, List.foldl_cons] at ih ⊢
    rw [ih, store.afterCall_size]

/-- In every state of a store the size counter is the length of the file plus
the length of the buffer (as a `uint64`). -/
theorem store.Reachable.size_eq (s : store) (h : store.Reachable s) :
    s.size = (s.File.length + s.buf.length) % 2 ^ 64 := by
  induction h with
  | init f => simp [newStore]
  | append s p _ ih =>
    have hc := congrArg List.length (store.Append_content s p)
    simp only [List.length_append, PutUint64_length] at hc
    rw [store.Append_size, hc, ih, lenWidth]
    omega
  | call s c _ ih =>
    have hc := congrArg List.length (store.afterCall_content s c)
    simp only [List.length_append] at hc
    rw [store.afterCall_size, hc, ih]

/-- The read of the frame at the end of the file and buffer. -/
theorem store.Read_frame (s : store) (p : List UInt8) (a : List UInt8)
    (hs : s.File ++ s.buf = a ++ PutUint64 p.length ++ p)
    (hb : a.length + lenWidth + p.length < 2 ^ 63) :
    (s.Read a.length).1 = Except.ok (some p, none) := by
  have hp : p.length < 2 ^ 64 := by omega
  have h1 : File.ReadAt (a ++ PutUint64 p.length ++ p) lenWidth (toInt64 a.length)
      = (PutUint64 p.length, none) := by
    rw [toInt64_of_lt _ (by omega)]
    exact File.ReadAt_mid a (PutUint64 p.length) p
      (by have hw : lenWidth = 8 := rfl; rw [PutUint64_length]; omega)
  have h2 : File.ReadAt (a ++ PutUint64 p.length ++ p) p.length
      (toInt64 ((a.length + lenWidth) % 2 ^ 64)) = (p, none) := by
    rw [Nat.mod_eq_of_lt (by omega), toInt64_of_lt _ (by omega)]
    have := File.ReadAt_mid (a ++ PutUint64 p.length) p []
      (by have hw : lenWidth = 8 := rfl; rw [List.length_append, PutUint64_length]; omega)
    simpa [lenWidth, PutUint64_length] using this
  simp only [store.Read, Writer.Flush_wr, hs, h1, Uint64_PutUint64 _ hp, h2]
  rw [if_neg (by omega)]

/-! ## The store: round trip, postcondition of `Append`, contiguity -/

/-- C1. Store round trip: in every state of a store, for every payload `p`
(the empty one included) whose frame keeps the file within the offsets an
`int64` can address, `Append(p)` succeeds and the `Read` of the position it
returned, issued right after it, succeeds and returns exactly `p`. -/
theorem store_append_read_roundtrip (s : store) (p : List UInt8) (hr : store.Reachable s)
    (hb : s.File.length + s.buf.length + lenWidth + p.length < 2 ^ 63) :
    (s.Append p).1.2.2 = none ∧
      ((s.Append p).2.Read (s.Append p).1.2.1).1 = Except.ok (some p, none) := by
  have hsize : s.size = (s.File ++ s.buf).length := by
    rw [store.Reachable.size_eq s hr, List.length_append]
    exact Nat.mod_eq_of_lt (by omega)
  have hc := store.Append_content s p
  rw [Nat.mod_eq_of_lt (show p.length < 2 ^ 64 by omega)] at hc
  refine ⟨by rw [store.Append_result], ?_⟩
  rw [store.Append_result]
  simp only [hsize]
  exact store.Read_frame _ p (s.File ++ s.buf) hc (by rw [List.length_append]; exact hb)

/-- Witness of C1: "world" appended to the store that holds "hello" in its buffer. -/
theorem store_append_read_roundtrip_witness :
    store.Reachable ((newStore []).Append hello).2 ∧
      ((((newStore []).Append hello).2.Append world).2.Read
        (((newStore []).Append hello).2.Append world).1.2.1).1 = Except.ok (some world, none) :=
  ⟨store.Reachable.append _ _ (store.Reachable.init []),
    (store_append_read_roundtrip ((newStore []).Append hello).2 world
      (store.Reachable.append _ _ (store.Reachable.init [])) (by decide)).2⟩

/-- C2. Postcondition of `Append`: on a store whose size counter is `s.size`,
with the new size within `uint64`, `Append(p)` succeeds, returns
`8 + len(p)` bytes written and the start position `s.size`, and leaves the size
counter at `s.size + 8 + len(p)`; on an empty store "hello" returns `(13, 0)`. -/
theorem store_append_postcondition (s : store) (p : List UInt8)
    (hb : s.size + lenWidth + p.length < 2 ^ 64) :
    (s.Append p).1 = (lenWidth + p.length, s.size, none) ∧
      (s.Append p).2.size = s.size + lenWidth + p.length ∧
      ((newStore []).Append hello).1 = (13, 0, none) := by
  refine ⟨?_, ?_, by decide⟩
  · rw [store.Append_result, Nat.mod_eq_of_lt (by omega), Nat.add_comm]
  · rw [store.Append_size, Nat.mod_eq_of_lt (show p.length + lenWidth < 2 ^ 64 by omega),
      Nat.mod_eq_of_lt (by omega)]
    omega

/-- Witness of C2: the empty payload appended after "hello". -/
theorem store_append_postcondition_witness :
    (((newStore []).Append hello).2.Append []).1 = (8, 13, none) ∧
      (((newStore []).Append hello).2.Append []).2.size = 21 :=
  ⟨(store_append_postcondition ((newStore []).Append hello).2 [] (by decide)).1,
    (store_append_postcondition ((newStore []).Append hello).2 [] (by decide)).2.1⟩

/-- C3. Sequential appends are contiguous: when an `Append` returns
`(n, pos)`, the next `Append` on the same store, after any calls of `Read` and
`ReadAt` in between, succeeds and returns the position `pos + n`; the second of
the appends "hello", "world" returns position 13. -/
theorem store_appends_contiguous (s : store) (p q : List UInt8) (cs : List ReadCall)
    (hb : s.size + lenWidth + p.length < 2 ^ 64) :
    (((s.Append p).2.afterCalls cs).Append q).1.2.2 = none ∧
      (((s.Append p).2.afterCalls cs).Append q).1.2.1 = (s.Append p).1.2.1 + (s.Append p).1.1 ∧
      ((((newStore []).Append hello).2.afterCalls []).Append world).1.2.1 = 13 := by
  refine ⟨by rw [store.Append_result], ?_, by decide⟩
  simp only [store.Append_result, store.afterCalls_size, store.Append_size, lenWidth] at hb ⊢
  omega

/-- Witness of C3: "hello", a read of each kind, then "world". -/
theorem store_appends_contiguous_witness :
    ((((newStore []).Append hello).2.afterCalls
        [ReadCall.Read 0, ReadCall.ReadAt 4 2, ReadCall.Read 99]).Append world).1.2.1
      = 0 + 13 :=
  (store_appends_contiguous (newStore []) hello world
    [ReadCall.Read 0, ReadCall.ReadAt 4 2, ReadCall.Read 99] (by decide)).2.1

/-! ## Lemmas on slices and on the index -/

theorem slice_ok (s : List UInt8) (lo hi : Nat) (h1 : lo ≤ hi) (h2 : hi ≤ s.length) :
    slice s lo hi = Except.ok ((s.drop lo).take (hi - lo)) := by
  simp [slice, h1, h2]

theorem take_drop_within (m : List UInt8) (s n k : Nat) (h : n + k ≤ s) :
    ((m.take s).drop n).take k = (m.drop n).take k := by
  rw [List.drop_take, List.take_take, Nat.min_eq_left (by omega)]

theorem int64ToUint32_lt (x : Int) : int64ToUint32 x < 2 ^ 32 := by
  unfold int64ToUint32
  have h1 : 0 ≤ x % 2 ^ 32 := Int.emod_nonneg _ (by norm_num)
  have h2 : x % 2 ^ 32 < 2 ^ 32 := Int.emod_lt_of_pos _ (by norm_num)
  omega

theorem index.entryNumber_lt (i : index) (inp : Int) : i.entryNumber inp < 2 ^ 32 := by
  unfold index.entryNumber
  split
  · exact Nat.mod_lt _ (by norm_num)
  · exact int64ToUint32_lt inp

/-- The three outcomes of `Read` in terms of the entry number. -/
theorem index.Read_eq (i : index) (inp : Int) :
    i.Read inp =
      if i.size = 0 then Except.ok (0, 0, some Error.EOF)
      else if i.size < i.entryNumber inp * 12 + 12 then Except.ok (0, 0, some Error.EOF)
      else
        match slice i.mmap (i.entryNumber inp * 12) (i.entryNumber inp * 12 + 4),
          slice i.mmap (i.entryNumber inp * 12 + 4) (i.entryNumber inp * 12 + 12) with
        | Except.ok b1, Except.ok b2 => Except.ok (Uint32 b1, Uint64 b2, none)
        | _, _ => Except.error Panic.sliceBounds := by
  have hlt := i.entryNumber_lt inp
  have e1 : (i.entryNumber inp * 12) % 2 ^ 64 = i.entryNumber inp * 12 :=
    Nat.mod_eq_of_lt (by omega)
  have e2 : (i.entryNumber inp * 12 + 12) % 2 ^ 64 = i.entryNumber inp * 12 + 12 :=
    Nat.mod_eq_of_lt (by omega)
  have e3 : (i.entryNumber inp * 12 + 4) % 2 ^ 64 = i.entryNumber inp * 12 + 4 :=
    Nat.mod_eq_of_lt (by omega)
  have hn : (if inp = -1 then (i.size / 12 + 2 ^ 64 - 1) % 2 ^ 64 % 2 ^ 32
      else int64ToUint32 inp) = i.entryNumber inp := rfl
  unfold index.Read
  simp only [entWidth, offWidth, posWidth, Nat.reduceAdd, hn, e1, e2, e3]

/-- A read of an entry that lies within the size and holds the bytes of
`(off, pos)` returns `(off, pos)`. -/
theorem index.Read_of_entry (i : index) (inp : Int) (off pos : Nat)
    (hsz : i.entryNumber inp * 12 + 12 ≤ i.size) (hm : i.size ≤ i.mmap.length)
    (hb : (i.mmap.drop (i.entryNumber inp * 12)).take 12 = PutUint32 off ++ PutUint64 pos)
    (ho : off < 2 ^ 32) (hp : pos < 2 ^ 64) :
    i.Read inp = Except.ok (off, pos, none) := by
  have h4 : (i.mmap.drop (i.entryNumber inp * 12)).take 4 = PutUint32 off := by
    have := congrArg (List.take 4) hb
    rw [List.take_take] at this
    simpa [PutUint32] using this
  have h8 : (i.mmap.drop (i.entryNumber inp * 12 + 4)).take 8 = PutUint64 pos := by
    have := congrArg (fun l => (l.drop 4).take 8) hb
    simp only [] at this
    rw [take_drop_within _ 12 4 8 (by omega), List.drop_drop] at this
    simpa [PutUint32, PutUint64] using this
  rw [index.Read_eq, if_neg (by omega), if_neg (by omega),
    slice_ok _ _ _ (by omega) (by omega), slice_ok _ _ _ (by omega) (by omega)]
  simp only [Nat.add_sub_cancel_left, h4]
  rw [show i.entryNumber inp * 12 + 12 - (i.entryNumber inp * 12 + 4) = 8 by omega, h8,
    Uint32_PutUint32 off ho, Uint64_PutUint64 pos hp]

theorem writeAt_length (s : List UInt8) (lo : Nat) (bs : List UInt8)
    (h : lo + bs.length ≤ s.length) : (writeAt s lo bs).length = s.length := by
  simp only [writeAt, List.length_append, List.length_take, List.length_drop]
  omega

theorem writeAt_writeAt (s : List UInt8) (lo : Nat) (a b : List UInt8)
    (h : lo + a.length ≤ s.length) :
    writeAt (writeAt s lo a) (lo + a.length) b
      = s.take lo ++ (a ++ b) ++ s.drop (lo + a.length + b.length) := by
  have hl : (s.take lo ++ a).length = lo + a.length := by
    simp only [List.length_append, List.length_take]
    omega
  have h1 : (writeAt s lo a).take (lo + a.length) = s.take lo ++ a := by
    unfold writeAt
    exact List.take_left' hl
  have h2 : (writeAt s lo a).drop (lo + a.length + b.length) = s.drop (lo + a.length + b.length) := by
    unfold writeAt
    rw [← List.drop_drop, List.drop_left' hl, List.drop_drop]
  show (writeAt s lo a).take (lo + a.length) ++ b
      ++ (writeAt s lo a).drop (lo + a.length + b.length) = _
  rw [h1, h2]
  simp

/-- The state that a `Write` with room for one more entry leaves. -/
theorem index.Write_ok (i : index) (off pos : Nat) (h : i.size + 12 ≤ i.mmap.length)
    (hc : i.mmap.length < 2 ^ 64) :
    i.Write off pos = Except.ok
      ({ mmap := i.mmap.take i.size ++ (PutUint32 off ++ PutUint64 pos)
            ++ i.mmap.drop (i.size + 12),
         size := i.size + 12 }, none) := by
  have e1 : (i.size + 12) % 2 ^ 64 = i.size + 12 := Nat.mod_eq_of_lt (by omega)
  have e2 : (i.size + 4) % 2 ^ 64 = i.size + 4 := Nat.mod_eq_of_lt (by omega)
  have hw := writeAt_writeAt i.mmap i.size (PutUint32 off) (PutUint64 pos)
    (by rw [PutUint32_length]; omega)
  have hl := writeAt_length i.mmap i.size (PutUint32 off) (by rw [PutUint32_length]; omega)
  rw [PutUint32_length, PutUint64_length] at hw
  unfold index.Write
  simp only [entWidth, offWidth, posWidth, Nat.reduceAdd, e1, e2]
  rw [if_neg (by omega), slice_ok _ _ _ (by omega) (by omega)]
  simp only []
  rw [slice_ok _ _ _ (by omega) (by omega)]
  simp only [hw]

/-- A `Write` without room for one more entry fails and changes nothing. -/
theorem index.Write_full (i : index) (off pos : Nat) (h : i.mmap.length < i.size + 12)
    (hc : i.size + 12 < 2 ^ 64) :
    i.Write off pos = Except.ok (i, some Error.EOF) := by
  unfold index.Write
  simp only [entWidth, offWidth, posWidth, Nat.reduceAdd]
  rw [Nat.mod_eq_of_lt hc, if_pos h]

theorem truncate_length (data : List UInt8) (n : Nat) : (truncate data n).length = n := by
  simp only [truncate, List.length_append, List.length_take, List.length_replicate]
  omega

theorem truncate_take (data : List UInt8) (n k : Nat) (h1 : k ≤ n) (h2 : k ≤ data.length) :
    (truncate data n).take k = data.take k := by
  unfold truncate
  rw [List.take_append_of_le_length (by rw [List.length_take]; omega), List.take_take,
    Nat.min_eq_left h1]

/-- What a successful `newIndex` returns. -/
theorem newIndex_ok (f : List UInt8) (c : Nat) (h0 : 0 < c) (h1 : c < 2 ^ 63) :
    newIndex f c = Except.ok { mmap := truncate f c, size := f.length % 2 ^ 64 } := by
  have e : toInt64 c = (c : Int) := toInt64_of_lt c h1
  unfold newIndex
  simp only [e, Int.toNat_ofNat, truncate_length]
  rw [if_neg (by omega), if_neg (by omega)]

/-- When `newIndex` succeeds, the capacity is positive and an `int64`. -/
theorem newIndex_inv (f : List UInt8) (c : Nat) (i : index) (h : newIndex f c = Except.ok i) :
    0 < c % 2 ^ 64 ∧ c % 2 ^ 64 < 2 ^ 63 ∧
      i = { mmap := truncate f (c % 2 ^ 64), size := f.length % 2 ^ 64 } := by
  unfold newIndex at h
  by_cases hc : c % 2 ^ 64 < 2 ^ 63
  · have e : toInt64 c = ((c % 2 ^ 64 : Nat) : Int) := by simp only [toInt64, if_pos hc]
    simp only [e, Int.toNat_ofNat, truncate_length] at h
    rw [if_neg (by omega)] at h
    by_cases h0 : c % 2 ^ 64 = 0
    · rw [if_pos h0] at h
      cases h
    · rw [if_neg h0] at h
      injection h with h
      exact ⟨by omega, hc, h.symm⟩
  · have e : toInt64 c < 0 := by
      simp only [toInt64, if_neg hc]
      have := Nat.mod_lt c (show 0 < 2 ^ 64 by norm_num)
      omega
    rw [if_pos e] at h
    cases h

/-- One `Write` keeps the mapping's length, and keeps the size an `int64`. -/
theorem index.Write_bounds (i j : index) (off pos : Nat) (e : Option Error)
    (hs : i.size < 2 ^ 63) (hl : i.mmap.length < 2 ^ 63)
    (h : i.Write off pos = Except.ok (j, e)) :
    j.size < 2 ^ 63 ∧ j.mmap.length = i.mmap.length ∧
      (j = i ∨ (i.size + 12 ≤ i.mmap.length ∧ j.size = i.size + 12)) := by
  by_cases hroom : i.size + 12 ≤ i.mmap.length
  · rw [index.Write_ok i off pos hroom (by omega)] at h
    injection h with h
    injection h with h1 h2
    subst h1
    refine ⟨by simp only []; omega, ?_, Or.inr ⟨hroom, rfl⟩⟩
    simp only [List.length_append, List.length_take, List.length_drop, PutUint32_length,
      PutUint64_length]
    omega
  · rw [index.Write_full i off pos (by omega) (by omega)] at h
    injection h with h
    injection h with h1 h2
    subst h1
    exact ⟨hs, rfl, Or.inl rfl⟩

theorem index.ReachableFrom.bounds_from (i0 i : index) (h : index.ReachableFrom i0 i)
    (hs : i0.size < 2 ^ 63) (hl : i0.mmap.length < 2 ^ 63) :
    i.size < 2 ^ 63 ∧ i.mmap.length = i0.mmap.length := by
  induction h with
  | refl => exact ⟨hs, rfl⟩
  | write i j off pos e _ hw ih =>
    have := index.Write_bounds i j off pos e ih.1 (by omega) hw
    exact ⟨this.1, by omega⟩

/-- In every state of an index the size and the length of the mapping are
below `2 ^ 63`. -/
theorem index.Reachable.size_bounds (i : index) (h : index.Reachable i) :
    i.size < 2 ^ 63 ∧ i.mmap.length < 2 ^ 63 := by
  obtain ⟨f, c, i0, hf, h0, hr⟩ := h
  obtain ⟨_, hc, rfl⟩ := newIndex_inv f c i0 h0
  have := index.ReachableFrom.bounds_from _ i hr
    (by simp only []; rw [Nat.mod_eq_of_lt (by omega)]; exact hf)
    (by simp only [truncate_length]; exact hc)
  simp only [truncate_length] at this
  omega

/-- Two indexes of the same size whose mappings agree below that size answer
every `Read` alike. -/
theorem index.Read_congr (i j : index) (hs : j.size = i.size) (hi : i.size ≤ i.mmap.length)
    (hj : j.size ≤ j.mmap.length) (hm : j.mmap.take j.size = i.mmap.take i.size) (inp : Int) :
    j.Read inp = i.Read inp := by
  have hn : j.entryNumber inp = i.entryNumber inp := by
    simp only [index.entryNumber, hs]
  rw [index.Read_eq i, index.Read_eq j, hn, hs]
  by_cases h0 : i.size = 0
  · rw [if_pos h0, if_pos h0]
  · rw [if_neg h0, if_neg h0]
    by_cases h1 : i.size < i.entryNumber inp * 12 + 12
    · rw [if_pos h1, if_pos h1]
    · rw [if_neg h1, if_neg h1]
      rw [slice_ok i.mmap _ _ (by omega) (by omega), slice_ok i.mmap _ _ (by omega) (by omega),
        slice_ok j.mmap _ _ (by omega) (by omega), slice_ok j.mmap _ _ (by omega) (by omega)]
      rw [← take_drop_within i.mmap i.size _ _ (show i.entryNumber inp * 12
          + (i.entryNumber inp * 12 + 4 - i.entryNumber inp * 12) ≤ i.size by omega),
        ← take_drop_within j.mmap i.size _ _ (show i.entryNumber inp * 12
          + (i.entryNumber inp * 12 + 4 - i.entryNumber inp * 12) ≤ i.size by omega),
        ← take_drop_within i.mmap i.size (i.entryNumber inp * 12 + 4) _ (by omega),
        ← take_drop_within j.mmap i.size (i.entryNumber inp * 12 + 4) _ (by omega)]
      rw [← hm, hs]

theorem entriesBytes_length (ps : List (Nat × Nat)) :
    (entriesBytes ps).length = 12 * ps.length := by
  induction ps with
  | nil => rfl
  | cons e ps ih =>
    simp only [entriesBytes, List.length_append, PutUint32_length, PutUint64_length, ih,
      List.length_cons]
    omega

theorem entriesBytes_append (ps qs : List (Nat × Nat)) :
    entriesBytes (ps ++ qs) = entriesBytes ps ++ entriesBytes qs := by
  induction ps with
  | nil => rfl
  | cons e ps ih =>
    show PutUint32 e.1 ++ PutUint64 e.2 ++ entriesBytes (ps ++ qs) = _
    rw [ih]
    simp only [entriesBytes, List.append_assoc]

/-- The twelve bytes at `k * 12` are those of the entry number `k`. -/
theorem entriesBytes_entry (ps : List (Nat × Nat)) (k : Nat) (e : Nat × Nat)
    (h : ps[k]? = some e) :
    ((entriesBytes ps).drop (k * 12)).take 12 = PutUint32 e.1 ++ PutUint64 e.2 := by
  induction ps generalizing k with
  | nil => simp at h
  | cons a ps ih =>
    have hl : (PutUint32 a.1 ++ PutUint64 a.2).length = 12 := rfl
    cases k with
    | zero =>
      simp only [List.getElem?_cons_zero, Option.some.injEq] at h
      subst h
      simp only [entriesBytes, Nat.zero_mul, List.drop_zero]
      exact List.take_left' hl
    | succ k =>
      simp only [List.getElem?_cons_succ] at h
      simp only [entriesBytes]
      rw [show (k + 1) * 12 = 12 + k * 12 by omega, ← List.drop_drop, List.drop_left' hl]
      exact ih k h

/-- The state after the writes of `ps`, all successful, on an index that holds
the entries `qs`: it holds `qs` followed by `ps`. -/
theorem index.WriteAll_spec (ps : List (Nat × Nat)) :
    ∀ (i j : index) (qs : List (Nat × Nat)), i.size = 12 * qs.length →
      i.mmap.take i.size = entriesBytes qs → i.size ≤ i.mmap.length → i.mmap.length < 2 ^ 63 →
      i.WriteAll ps = Except.ok (j, none) →
      j.size = 12 * (qs ++ ps).length ∧ j.mmap.take j.size = entriesBytes (qs ++ ps) ∧
        j.size ≤ j.mmap.length ∧ j.mmap.length = i.mmap.length := by
  induction ps with
  | nil =>
    intro i j qs h1 h2 h3 _ hw
    simp only [index.WriteAll, Except.ok.injEq, Prod.mk.injEq, and_true] at hw
    subst hw
    rw [List.append_nil]
    exact ⟨h1, h2, h3, rfl⟩
  | cons e ps ih =>
    intro i j qs h1 h2 h3 h4 hw
    by_cases hroom : i.size + 12 ≤ i.mmap.length
    · simp only [index.WriteAll, index.Write_ok i e.1 e.2 hroom (by omega)] at hw
      have hlen : (i.mmap.take i.size ++ (PutUint32 e.1 ++ PutUint64 e.2)).length
          = i.size + 12 := by
        simp only [List.length_append, List.length_take, PutUint32_length, PutUint64_length]
        omega
      have := ih _ j (qs ++ [e])
        (by simp only [List.length_append, List.length_cons, List.length_nil]; omega)
        (by
          simp only []
          rw [List.take_left' hlen, h2, entriesBytes_append]
          simp only [entriesBytes, List.append_nil])
        (by
          simp only [List.length_append, List.length_take, List.length_drop, PutUint32_length,
            PutUint64_length]
          omega)
        (by
          simp only [List.length_append, List.length_take, List.length_drop, PutUint32_length,
            PutUint64_length]
          omega)
        hw
      simp only [List.append_assoc, List.singleton_append] at this
      refine ⟨this.1, this.2.1, this.2.2.1, ?_⟩
      rw [this.2.2.2]
      simp only [List.length_append, List.length_take, List.length_drop, PutUint32_length,
        PutUint64_length]
      omega
    · simp only [index.WriteAll, index.Write_full i e.1 e.2 (by omega) (by omega)] at hw
      cases hw

/-- With room for all of `ps`, every write of `ps` succeeds. -/
theorem index.WriteAll_ok (ps : List (Nat × Nat)) :
    ∀ (i : index), i.size + 12 * ps.length ≤ i.mmap.length → i.mmap.length < 2 ^ 63 →
      ∃ j, i.WriteAll ps = Except.ok (j, none) := by
  induction ps with
  | nil => exact fun i _ _ => ⟨i, rfl⟩
  | cons e ps ih =>
    intro i h1 h2
    simp only [List.length_cons] at h1
    simp only [index.WriteAll, index.Write_ok i e.1 e.2 (by omega) (by omega)]
    apply ih
    · simp only [List.length_append, List.length_take, List.length_drop, PutUint32_length,
        PutUint64_length]
      omega
    · simp only [List.length_append, List.length_take, List.length_drop, PutUint32_length,
        PutUint64_length]
      omega

/-- After the successful writes of `ps` on an index made on an empty file, a
`Read` returns the entry of `ps` that its entry number selects. -/
theorem index.Read_written (c : Nat) (ps : List (Nat × Nat)) (i0 i : index)
    (h0 : newIndex [] c = Except.ok i0) (hw : i0.WriteAll ps = Except.ok (i, none))
    (ht : ∀ e ∈ ps, e.1 < 2 ^ 32 ∧ e.2 < 2 ^ 64) (inp : Int) (e : Nat × Nat)
    (hk : ps[i.entryNumber inp]? = some e) :
    i.Read inp = Except.ok (e.1, e.2, none) := by
  obtain ⟨_, hc, rfl⟩ := newIndex_inv [] c i0 h0
  obtain ⟨h1, h2, h3, _⟩ := index.WriteAll_spec ps _ i [] rfl (List.take_zero _) (Nat.zero_le _)
    (by simp only [truncate_length]; exact hc) hw
  simp only [List.nil_append] at h1 h2
  have hlt : i.entryNumber inp < ps.length := by
    by_contra hge
    rw [List.getElem?_eq_none (by omega)] at hk
    cases hk
  have hmem : e ∈ ps := List.getElem?_mem hk
  have hb := entriesBytes_entry ps _ e hk
  rw [← h2, take_drop_within _ _ _ _ (by omega)] at hb
  exact index.Read_of_entry i inp e.1 e.2 (by omega) h3 hb (ht e hmem).1 (ht e hmem).2

/-! ## The index: round trip, last entry, capacity, bounds of `Read` -/

/-- C4 (amended). Index round trip: after the successful writes of the pairs
`ps` (offsets that are `uint32`, positions that are `uint64`) on an index
created on an empty file, `Read(k)` for every entry number `k` in range and
below `2 ^ 32` succeeds and returns exactly the pair number `k`. -/
theorem index_write_read_roundtrip (c : Nat) (ps : List (Nat × Nat)) (i0 i : index)
    (h0 : newIndex [] c = Except.ok i0) (hw : i0.WriteAll ps = Except.ok (i, none))
    (ht : ∀ e ∈ ps, e.1 < 2 ^ 32 ∧ e.2 < 2 ^ 64) (k : Nat) (e : Nat × Nat)
    (hk : ps[k]? = some e) (hk32 : k < 2 ^ 32) :
    i.Read (k : Int) = Except.ok (e.1, e.2, none) := by
  have hn : i.entryNumber (k : Int) = k := by
    unfold index.entryNumber
    rw [if_neg (by omega)]
    unfold int64ToUint32
    omega
  exact index.Read_written c ps i0 i h0 hw ht (k : Int) e (by rw [hn]; exact hk)

/-- Witness of C4: two entries in an index of capacity 24, read of entry 1. -/
theorem index_write_read_roundtrip_witness :
    ∃ i0 i, newIndex [] 24 = Except.ok i0 ∧ i0.WriteAll [(0, 0), (1, 13)] = Except.ok (i, none) ∧
      i.Read 1 = Except.ok (1, 13, none) :=
  ⟨_, _, rfl, rfl,
    index_write_read_roundtrip 24 [(0, 0), (1, 13)] _ _ rfl rfl (by decide) 1 (1, 13) rfl
      (by decide)⟩

/-- C4 fails as stated: in an index of capacity `12 * (2 ^ 32 + 1)` that
holds the `2 ^ 32 + 1` pairs of `wrapEntries`, all written with success, the
pair number `2 ^ 32` is `(0, 0)`, yet `Read(2 ^ 32)` returns the pair number 0,
which is `(7, 7)`. -/
theorem index_write_read_roundtrip_counterexample :
    ∃ i0 i, newIndex [] wrapCapacity = Except.ok i0 ∧
      i0.WriteAll wrapEntries = Except.ok (i, none) ∧
      (∀ e ∈ wrapEntries, e.1 < 2 ^ 32 ∧ e.2 < 2 ^ 64) ∧
      wrapEntries[4294967296]? = some (0, 0) ∧
      i.Read 4294967296 = Except.ok (7, 7, none) := by
  have hcap : wrapCapacity = 51539607564 := by norm_num [wrapCapacity]
  have hlen : wrapEntries.length = 4294967297 := by
    rw [wrapEntries, List.length_cons, List.length_replicate]
    norm_num
  have ht : ∀ e ∈ wrapEntries, e.1 < 2 ^ 32 ∧ e.2 < 2 ^ 64 := by
    intro e he
    rw [wrapEntries, List.mem_cons, List.mem_replicate] at he
    rcases he with rfl | ⟨_, rfl⟩ <;> norm_num
  obtain ⟨i0, h0, hs, hm⟩ : ∃ i0, newIndex [] wrapCapacity = Except.ok i0 ∧ i0.size = 0 ∧
      i0.mmap.length = wrapCapacity :=
    ⟨_, newIndex_ok [] wrapCapacity (by rw [hcap]; norm_num) (by rw [hcap]; norm_num), rfl,
      truncate_length _ _⟩
  obtain ⟨i, hw⟩ := index.WriteAll_ok wrapEntries i0 (by rw [hs, hm, hlen, hcap])
    (by rw [hm, hcap]; norm_num)
  refine ⟨i0, i, h0, hw, ht, ?_, ?_⟩
  · rw [wrapEntries, List.getElem?_cons, if_neg (by norm_num),
      List.getElem?_replicate_of_lt (by norm_num)]
  · have hn : i.entryNumber 4294967296 = 0 := by
      unfold index.entryNumber
      rw [if_neg (by decide)]
      decide
    exact index.Read_written wrapCapacity wrapEntries i0 i h0 hw ht 4294967296 (7, 7)
      (by rw [hn, wrapEntries, List.getElem?_cons_zero])

/-- C5 (amended). `Read(-1)` returns the last entry: on an index whose size is
a multiple of 12 and that holds fewer than `2 ^ 32` entries, after a successful
`Write(off, pos)` the call `Read(-1)` succeeds and returns `(off, pos)`, the
entry whose number is `size / 12 - 1`. -/
theorem index_read_last (i j : index) (off pos : Nat) (hr : index.Reachable i)
    (ho : off < 2 ^ 32) (hp : pos < 2 ^ 64) (hw : i.Write off pos = Except.ok (j, none))
    (ha : i.size % entWidth = 0) (hn : i.size / entWidth < 2 ^ 32) :
    j.Read (-1) = Except.ok (off, pos, none) ∧ j.entryNumber (-1) = j.size / entWidth - 1 := by
  obtain ⟨hs, hl⟩ := index.Reachable.size_bounds i hr
  have he : entWidth = 12 := rfl
  rw [he] at ha hn ⊢
  by_cases hroom : i.size + 12 ≤ i.mmap.length
  · rw [index.Write_ok i off pos hroom (by omega)] at hw
    injection hw with hw
    injection hw with hw _
    subst hw
    have hnum : index.entryNumber
        { mmap := i.mmap.take i.size ++ (PutUint32 off ++ PutUint64 pos)
            ++ i.mmap.drop (i.size + 12),
          size := i.size + 12 } (-1) = i.size / 12 := by
      simp only [index.entryNumber, he, if_true]
      omega
    have hlen : (i.mmap.take i.size).length = i.size := by
      rw [List.length_take]
      omega
    refine ⟨?_, by rw [hnum]; simp only []; omega⟩
    apply index.Read_of_entry _ _ off pos
    · rw [hnum]
      simp only []
      omega
    · simp only [List.length_append, List.length_take, List.length_drop, PutUint32_length,
        PutUint64_length]
      omega
    · rw [hnum]
      simp only []
      rw [show i.size / 12 * 12 = i.size by omega, List.append_assoc, List.drop_left' hlen]
      exact List.take_left' rfl
    · exact ho
    · exact hp
  · rw [index.Write_full i off pos (by omega) (by omega)] at hw
    injection hw with hw
    injection hw with _ hw
    cases hw

/-- Witness of C5: the second entry of an index of capacity 24. -/
theorem index_read_last_witness :
    ∃ i0 i j, newIndex [] 24 = Except.ok i0 ∧ i0.Write 0 0 = Except.ok (i, none) ∧
      i.Write 1 13 = Except.ok (j, none) ∧ j.Read (-1) = Except.ok (1, 13, none) :=
  ⟨_, _, _, rfl, rfl, rfl,
    (index_read_last _ _ 1 13
      ⟨[], 24, _, by decide, rfl, index.ReachableFrom.write _ _ 0 0 none index.ReachableFrom.refl rfl⟩
      (by decide) (by decide) rfl (by decide) (by decide)).1⟩

/-- C5 fails as stated: on an index made on a file of five bytes, with
capacity 24, `Write(1, 13)` succeeds and the `Read(-1)` after it does not
return `(1, 13)`; it decodes the twelve bytes at offset 0. -/
theorem index_read_last_counterexample :
    ∃ i j, newIndex [1, 2, 3, 4, 5] 24 = Except.ok i ∧ i.Write 1 13 = Except.ok (j, none) ∧
      j.Read (-1) = Except.ok (16909060, 360287970206416896, none) ∧
      j.Read (-1) ≠ Except.ok (1, 13, none) :=
  ⟨_, _, rfl, rfl, by decide, by decide⟩

/-- C6. A write beyond the capacity is atomic: in every state of an index, when
`size + 12` exceeds the length of the mapping `Write` fails and leaves the size
and every byte of the mapping as they were; when `size + 12` is at most the
length of the mapping `Write` succeeds. -/
theorem index_write_capacity (i : index) (off pos : Nat) (hr : index.Reachable i) :
    (i.mmap.length < i.size + entWidth → i.Write off pos = Except.ok (i, some Error.EOF)) ∧
      (i.size + entWidth ≤ i.mmap.length → ∃ j, i.Write off pos = Except.ok (j, none)) := by
  obtain ⟨hs, hl⟩ := index.Reachable.size_bounds i hr
  have he : entWidth = 12 := rfl
  rw [he]
  exact ⟨fun h => index.Write_full i off pos h (by omega),
    fun h => ⟨_, index.Write_ok i off pos h (by omega)⟩⟩

/-- Witness of C6: the third write on an index of capacity 24. -/
theorem index_write_capacity_witness :
    ∃ i0 i j, newIndex [] 24 = Except.ok i0 ∧ i0.Write 0 0 = Except.ok (i, none) ∧
      i.Write 1 13 = Except.ok (j, none) ∧ j.Write 2 26 = Except.ok (j, some Error.EOF) :=
  ⟨_, _, _, rfl, rfl, rfl,
    (index_write_capacity _ 2 26
      ⟨[], 24, _, by decide, rfl,
        index.ReachableFrom.write _ _ 1 13 none
          (index.ReachableFrom.write _ _ 0 0 none index.ReachableFrom.refl rfl) rfl⟩).1
      (by decide)⟩

/-- C7 (amended). Reads beyond the size are rejected: for every index and every
non-negative argument `n`, when the byte range of the entry number
`n mod 2 ^ 32` (which is `n` itself below `2 ^ 32`) is not contained in
`[0, size)`, `Read(n)` fails with end-of-data, whatever the mapping holds. -/
theorem index_read_beyond_size (i : index) (n : Int) (h0 : 0 ≤ n)
    (h : (i.size : Int) < n % 2 ^ 32 * 12 + 12) :
    i.Read n = Except.ok (0, 0, some Error.EOF) := by
  have hn : i.entryNumber n = (n % 2 ^ 32).toNat := by
    unfold index.entryNumber
    rw [if_neg (by omega)]
    rfl
  have h1 : 0 ≤ n % 2 ^ 32 := Int.emod_nonneg _ (by norm_num)
  rw [index.Read_eq, hn]
  by_cases hz : i.size = 0
  · rw [if_pos hz]
  · rw [if_neg hz, if_pos (by omega)]

/-- Witness of C7 (amended): entry number 1 of an index that holds one entry. -/
theorem index_read_beyond_size_witness :
    index.Read { mmap := entriesBytes [(7, 99)] ++ List.replicate 12 0, size := 12 } 1
      = Except.ok (0, 0, some Error.EOF) :=
  index_read_beyond_size _ 1 (by decide) (by decide)

/-- C7 fails as stated: the index made on a file of one entry `(7, 99)` has
size 12, the byte range of the entry number `2 ^ 32` is not contained in
`[0, 12)`, and `Read(2 ^ 32)` succeeds with the entry number 0. -/
theorem index_read_beyond_size_counterexample :
    ∃ i, newIndex (entriesBytes [(7, 99)]) 24 = Except.ok i ∧ i.size = 12 ∧
      ¬ ((4294967296 : Int) * 12 + 12 ≤ (i.size : Int)) ∧
      i.Read 4294967296 = Except.ok (7, 99, none) :=
  ⟨_, rfl, rfl, by decide, by decide⟩

/-- C8. An empty index rejects every read: when the size is 0, `Read` of any
argument, `-1` included, fails with end-of-data and returns offset 0 and
position 0. -/
theorem index_read_empty (i : index) (inp : Int) (h : i.size = 0) :
    i.Read inp = Except.ok (0, 0, some Error.EOF) := by
  unfold index.Read
  rw [if_pos h]

/-- Witness of C8: `Read(-1)` on a new index of capacity 24. -/
theorem index_read_empty_witness :
    index.Read { mmap := List.replicate 24 0, size := 0 } (-1)
      = Except.ok (0, 0, some Error.EOF) :=
  index_read_empty _ (-1) rfl

/-- C9 (amended). Size invariant of the index: when `newIndex` succeeds on a
file whose length is a multiple of 12 and at most the configured capacity, in
every state reached by calls of `Write` and `Read` the size is a multiple of 12
and at most the length of the mapping. -/
theorem index_size_invariant (f : List UInt8) (c : Nat) (i0 i : index) (hc : c < 2 ^ 64)
    (hf : f.length % entWidth = 0) (hfc : f.length ≤ c) (h0 : newIndex f c = Except.ok i0)
    (hr : index.ReachableFrom i0 i) :
    i.size % entWidth = 0 ∧ i.size ≤ i.mmap.length := by
  obtain ⟨_, hc63, rfl⟩ := newIndex_inv f c i0 h0
  rw [Nat.mod_eq_of_lt hc] at hc63
  have he : entWidth = 12 := rfl
  rw [he] at hf ⊢
  have key : i.size % 12 = 0 ∧ i.size ≤ i.mmap.length ∧ i.size < 2 ^ 63 ∧
      i.mmap.length < 2 ^ 63 := by
    induction hr with
    | refl =>
      simp only [truncate_length, Nat.mod_eq_of_lt hc]
      rw [Nat.mod_eq_of_lt (show f.length < 2 ^ 64 by omega)]
      exact ⟨hf, hfc, by omega, hc63⟩
    | write i j off pos e _ hw ih =>
      obtain ⟨h1, h2, h3⟩ := index.Write_bounds i j off pos e ih.2.2.1 ih.2.2.2 hw
      rcases h3 with rfl | ⟨h4, h5⟩
      · exact ih
      · exact ⟨by omega, by omega, h1, by omega⟩
  exact ⟨key.1, key.2.1⟩

/-- Witness of C9 (amended): a file of one entry, capacity 24, one write. -/
theorem index_size_invariant_witness :
    ∃ i0 i, newIndex (entriesBytes [(7, 99)]) 24 = Except.ok i0 ∧
      i0.Write 8 112 = Except.ok (i, none) ∧ i.size % entWidth = 0 ∧ i.size ≤ i.mmap.length :=
  ⟨_, _, rfl, rfl,
    index_size_invariant (entriesBytes [(7, 99)]) 24 _ _ (by decide) (by decide) (by decide) rfl
      (index.ReachableFrom.write _ _ 8 112 none index.ReachableFrom.refl rfl)⟩

/-- C9 fails as stated: `newIndex` on a file of 29 bytes with capacity 24
succeeds and gives a size, 29, that is neither a multiple of 12 nor at most
the length of the mapping, 24. -/
theorem index_size_invariant_counterexample :
    ∃ i, newIndex (List.replicate 29 0) 24 = Except.ok i ∧ index.Reachable i ∧
      ¬ (i.size % entWidth = 0) ∧ ¬ (i.size ≤ i.mmap.length) :=
  ⟨_, rfl, ⟨List.replicate 29 0, 24, _, by decide, rfl, index.ReachableFrom.refl⟩,
    by decide, by decide⟩

/-- C10 (amended). Durability of the index across close and reopen: in every
state of an index whose size `s` is at most the length of the mapping, `Close`
succeeds and leaves a file of exactly `s` bytes, the first `s` bytes of the
mapping; `newIndex` on that file with a capacity `c`, `s <= c` and
`0 < c < 2 ^ 63`, succeeds and gives an index of size `s` whose `Read` returns,
for every argument (`-1` included), what it returned before the `Close`. -/
theorem index_close_reopen (i : index) (c : Nat) (hr : index.Reachable i)
    (hs : i.size ≤ i.mmap.length) (hc : i.size ≤ c) (hc0 : 0 < c) (hc1 : c < 2 ^ 63) :
    ∃ file j, i.Close = Except.ok file ∧ file.length = i.size ∧ file = i.mmap.take i.size ∧
      newIndex file c = Except.ok j ∧ j.size = i.size ∧ ∀ inp, j.Read inp = i.Read inp := by
  obtain ⟨hs63, _⟩ := index.Reachable.size_bounds i hr
  have hlen : (i.mmap.take i.size).length = i.size := by
    rw [List.length_take]
    omega
  have hclose : i.Close = Except.ok (i.mmap.take i.size) := by
    unfold index.Close
    rw [toInt64_of_lt _ hs63, if_neg (by omega), Int.toNat_ofNat]
    unfold truncate
    rw [show i.size - i.mmap.length = 0 by omega, List.replicate_zero, List.append_nil]
  refine ⟨i.mmap.take i.size, _, hclose, hlen, rfl, newIndex_ok _ c hc0 hc1, ?_, ?_⟩
  · simp only [hlen]
    exact Nat.mod_eq_of_lt (by omega)
  · have hsz : (i.mmap.take i.size).length % 2 ^ 64 = i.size := by
      rw [hlen]
      exact Nat.mod_eq_of_lt (by omega)
    intro inp
    apply index.Read_congr i _ hsz hs
    · simp only [truncate_length, hsz]
      exact hc
    · simp only [hsz]
      rw [truncate_take _ _ _ hc (by omega), List.take_take, Nat.min_self]

/-- Witness of C10 (amended): an index of capacity 24 that holds one entry,
closed and made again with capacity 36. -/
theorem index_close_reopen_witness :
    ∃ file j,
      index.Close { mmap := entriesBytes [(7, 99)] ++ List.replicate 12 0, size := 12 }
        = Except.ok file ∧
      file.length = 12 ∧ file = entriesBytes [(7, 99)] ∧
      newIndex file 36 = Except.ok j ∧ j.size = 12 ∧
      ∀ inp, j.Read inp
        = index.Read { mmap := entriesBytes [(7, 99)] ++ List.replicate 12 0, size := 12 } inp :=
  index_close_reopen { mmap := entriesBytes [(7, 99)] ++ List.replicate 12 0, size := 12 } 36
    ⟨[], 24, _, by decide, rfl,
      index.ReachableFrom.write _ _ 7 99 none index.ReachableFrom.refl rfl⟩
    (by decide) (by decide) (by decide) (by decide)

/-- C10 fails as stated: the index made on a file of 36 bytes with capacity 24
has size 36 and a mapping of 24 bytes; `Close` leaves a file of 36 bytes, which
is not a part of the mapping, and the index made again on it with capacity 36
answers `Read(2)` with an entry where the first index panicked. -/
theorem index_close_reopen_counterexample :
    ∃ i file j, newIndex (List.replicate 36 0) 24 = Except.ok i ∧ index.Reachable i ∧
      i.Close = Except.ok file ∧ file ≠ i.mmap.take i.size ∧ i.size ≤ 36 ∧
      newIndex file 36 = Except.ok j ∧
      i.Read 2 = Except.error Panic.sliceBounds ∧ j.Read 2 = Except.ok (0, 0, none) :=
  ⟨_, _, _, rfl, ⟨List.replicate 36 0, 24, _, by decide, rfl, index.ReachableFrom.refl⟩, rfl,
    by decide, by decide, rfl, by decide, by decide⟩

/-! ## Lemmas on frames and on sequences of calls -/

theorem UInt8_ofNat_congr (a b : Nat) (h : a % 256 = b % 256) : UInt8.ofNat a = UInt8.ofNat b := by
  apply UInt8.toNat.inj
  rw [toNat_ofNat_byte, toNat_ofNat_byte]
  exact h

/-- The bytes `PutUint64` stores depend on the value modulo `2 ^ 64` only. -/
theorem PutUint64_mod (v : Nat) : PutUint64 (v % 2 ^ 64) = PutUint64 v := by
  unfold PutUint64
  have h (k : Nat) (hk : k ∣ 2 ^ 56) (h0 : 0 < k) :
      UInt8.ofNat (v % 2 ^ 64 / k) = UInt8.ofNat (v / k) := by
    apply UInt8_ofNat_congr
    obtain ⟨m, hm⟩ := hk
    have : 2 ^ 64 = k * (m * 256) := by
      rw [← Nat.mul_assoc, ← hm]
      norm_num
    rw [this, Nat.mod_mul_right_div_self, Nat.mod_mod_of_dvd _ (Dvd.intro_left m rfl)]
  rw [h (2 ^ 56) (dvd_refl _) (by norm_num), h (2 ^ 48) ⟨2 ^ 8, by norm_num⟩ (by norm_num),
    h (2 ^ 40) ⟨2 ^ 16, by norm_num⟩ (by norm_num), h (2 ^ 32) ⟨2 ^ 24, by norm_num⟩ (by norm_num),
    h (2 ^ 24) ⟨2 ^ 32, by norm_num⟩ (by norm_num), h (2 ^ 16) ⟨2 ^ 40, by norm_num⟩ (by norm_num),
    h (2 ^ 8) ⟨2 ^ 48, by norm_num⟩ (by norm_num)]
  congr 7
  have := h 1 ⟨2 ^ 56, by norm_num⟩ (by norm_num)
  simpa using this

theorem frames_append (ps qs : List (List UInt8)) :
    frames (ps ++ qs) = frames ps ++ frames qs := by
  induction ps with
  | nil => rfl
  | cons p ps ih =>
    show frame p ++ frames (ps ++ qs) = _
    rw [ih]
    simp only [frames, List.append_assoc]

theorem appended_append (cs ds : List StoreCall) :
    appended (cs ++ ds) = appended cs ++ appended ds := by
  induction cs with
  | nil => rfl
  | cons c cs ih =>
    cases c with
    | Append q =>
      show q :: appended (cs ++ ds) = _
      rw [ih]
      rfl
    | Reading r =>
      show appended (cs ++ ds) = _
      rw [ih]
      rfl

/-- What the first eight bytes of a frame hold, and what follows them. -/
theorem frame_parts (p : List UInt8) :
    Uint64 ((frame p).take lenWidth) = p.length % 2 ^ 64 ∧ (frame p).drop lenWidth = p := by
  have hl : (PutUint64 p.length).length = lenWidth := rfl
  unfold frame
  rw [List.take_left' hl, List.drop_left' hl, ← PutUint64_mod,
    Uint64_PutUint64 _ (Nat.mod_lt _ (by norm_num))]
  exact ⟨rfl, rfl⟩

/-- The file followed by the buffer, after a sequence of calls: what it was,
then the frames of the payloads appended. -/
theorem store.run_content (cs : List StoreCall) :
    ∀ s : store, (s.run cs).File ++ (s.run cs).buf = s.File ++ s.buf ++ frames (appended cs) := by
  induction cs with
  | nil => intro s; simp [store.run, appended, frames]
  | cons c cs ih =>
    intro s
    have hstep : store.run s (c :: cs) = store.run (s.afterStoreCall c) cs := rfl
    rw [hstep, ih]
    cases c with
    | Append p =>
      simp only [store.afterStoreCall, store.Append_content, PutUint64_mod, appended, frames,
        frame, List.append_assoc]
    | Reading r =>
      simp only [store.afterStoreCall, store.afterCall_content, appended]

theorem store.run_reachable (cs : List StoreCall) :
    ∀ s : store, store.Reachable s → store.Reachable (s.run cs) := by
  induction cs with
  | nil => exact fun s h => h
  | cons c cs ih =>
    intro s h
    have hstep : store.run s (c :: cs) = store.run (s.afterStoreCall c) cs := rfl
    rw [hstep]
    apply ih
    cases c with
    | Append p => exact store.Reachable.append s p h
    | Reading r => exact store.Reachable.call s r h

/-- The result of `Read` depends on the file followed by the buffer only. -/
theorem store.Read_result_congr (s t : store) (h : s.File ++ s.buf = t.File ++ t.buf) (pos : Nat) :
    (s.Read pos).1 = (t.Read pos).1 := by
  unfold store.Read
  simp only [Writer.Flush_wr, h]
  split
  · rfl
  · split
    · rfl
    · split <;> rfl

theorem store.Close_eq (s : store) : s.Close = (s.File ++ s.buf, none) := by
  unfold store.Close
  rw [Writer.Flush_wr]

/-! ## The store: durability, file format, size invariant, reads beyond the data -/

/-- C11. Durability of the store across close and reopen: for the store made
on a file `f` and taken through any calls, `Close` succeeds and leaves in the
file the old bytes and every frame appended; the store made again on that file
has the same size counter, answers every `Read(pos)` as before the `Close`, and
its next `Append` starts at the old size. -/
theorem store_close_reopen (f : List UInt8) (cs : List StoreCall) :
    ((newStore f).run cs).Close = (f ++ frames (appended cs), none) ∧
      (newStore ((newStore f).run cs).Close.1).size = ((newStore f).run cs).size ∧
      (∀ pos, ((newStore ((newStore f).run cs).Close.1).Read pos).1
        = (((newStore f).run cs).Read pos).1) ∧
      (∀ p, ((newStore ((newStore f).run cs).Close.1).Append p).1.2.1
        = ((newStore f).run cs).size) := by
  have hc : ((newStore f).run cs).File ++ ((newStore f).run cs).buf
      = f ++ frames (appended cs) := by
    rw [store.run_content]
    simp [newStore]
  have hsize := store.Reachable.size_eq _ (store.run_reachable cs _ (store.Reachable.init f))
  have hclose : ((newStore f).run cs).Close = (f ++ frames (appended cs), none) := by
    rw [store.Close_eq, hc]
  have hnew : (newStore ((newStore f).run cs).Close.1).size = ((newStore f).run cs).size := by
    rw [hsize, store.Close_eq]
    simp only [newStore, List.length_append]
  refine ⟨hclose, hnew, ?_, ?_⟩
  · intro pos
    apply store.Read_result_congr
    rw [store.Close_eq]
    simp only [newStore, List.append_nil]
  · intro p
    rw [store.Append_result]
    exact hnew

/-- C12. The format of the store file: for a store made on an empty file and
taken through any calls, once the buffer is flushed, by `Close`, by `Read` or
by `ReadAt`, the file holds exactly the frames of the payloads appended, in
order from offset 0 and with nothing in between; a frame is the length of the
payload in eight big-endian bytes followed by the payload. -/
theorem store_file_format (cs : List StoreCall) :
    ((newStore []).run cs).Close = (frames (appended cs), none) ∧
      (∀ pos, (((newStore []).run cs).Read pos).2.File = frames (appended cs)) ∧
      (∀ len off, (((newStore []).run cs).ReadAt len off).2.File = frames (appended cs)) ∧
      (∀ p, frame p = PutUint64 p.length ++ p ∧
        Uint64 ((frame p).take lenWidth) = p.length % 2 ^ 64 ∧ (frame p).drop lenWidth = p) := by
  have hc : ((newStore []).run cs).File ++ ((newStore []).run cs).buf
      = frames (appended cs) := by
    rw [store.run_content]
    simp [newStore]
  have hcall (c : ReadCall) : (((newStore []).run cs).afterCall c).File
      = frames (appended cs) := by
    have h1 := store.afterCall_content ((newStore []).run cs) c
    have h2 : (((newStore []).run cs).afterCall c).buf = [] := by
      cases c with
      | Read pos =>
        simp only [store.afterCall, store.Read]
        split
        · exact Writer.Flush_buf _
        · split
          · exact Writer.Flush_buf _
          · split <;> exact Writer.Flush_buf _
      | ReadAt len off => exact Writer.Flush_buf _
    rw [h2, List.append_nil, hc] at h1
    exact h1
  refine ⟨by rw [store.Close_eq, hc], fun pos => hcall (ReadCall.Read pos),
    fun len off => hcall (ReadCall.ReadAt len off), fun p => ⟨rfl, frame_parts p⟩⟩

/-- C17. Size invariant of the store: for a store made on an empty file and
taken through any calls of `Append`, `Read` and `ReadAt`, with the frames
(the next one included) within `uint64`, the size counter is the number of
bytes of all frames appended so far, which is the length of the file plus the
length of the buffer; `Read` and `ReadAt` leave the counter as it is and the
next `Append` does not decrease it. -/
theorem store_size_invariant (cs : List StoreCall) (p : List UInt8)
    (hb : (frames (appended cs)).length + lenWidth + p.length < 2 ^ 64) :
    ((newStore []).run cs).size = (frames (appended cs)).length ∧
      ((newStore []).run cs).size
        = ((newStore []).run cs).File.length + ((newStore []).run cs).buf.length ∧
      (∀ c : ReadCall, (((newStore []).run cs).afterCall c).size = ((newStore []).run cs).size) ∧
      ((newStore []).run cs).size ≤ (((newStore []).run cs).Append p).2.size ∧
      (((newStore []).run cs).Append p).2.size
        = (frames (appended (cs ++ [StoreCall.Append p]))).length := by
  have hc : ((newStore []).run cs).File ++ ((newStore []).run cs).buf
      = frames (appended cs) := by
    rw [store.run_content]
    simp [newStore]
  have hlen := congrArg List.length hc
  rw [List.length_append] at hlen
  have hsize := store.Reachable.size_eq _ (store.run_reachable cs _ (store.Reachable.init []))
  rw [hlen, Nat.mod_eq_of_lt (by omega)] at hsize
  have happ : appended (cs ++ [StoreCall.Append p]) = appended cs ++ [p] :=
    appended_append cs [StoreCall.Append p]
  have hfl : (frames (appended cs ++ [p])).length
      = (frames (appended cs)).length + lenWidth + p.length := by
    rw [frames_append]
    simp only [frames, frame, List.length_append, PutUint64_length, List.length_nil, lenWidth]
    omega
  refine ⟨hsize, by rw [hsize, hlen], fun c => store.afterCall_size _ c, ?_, ?_⟩
  · rw [store.Append_size, hsize, Nat.mod_eq_of_lt (show p.length + lenWidth < 2 ^ 64 by omega),
      Nat.mod_eq_of_lt (by omega)]
    omega
  · rw [store.Append_size, hsize, Nat.mod_eq_of_lt (show p.length + lenWidth < 2 ^ 64 by omega),
      Nat.mod_eq_of_lt (by omega), happ, hfl]
    omega

/-- Witness of C17: "hello", two reads, then "world". -/
theorem store_size_invariant_witness :
    ((newStore []).run [StoreCall.Append hello, StoreCall.Reading (ReadCall.Read 0),
        StoreCall.Reading (ReadCall.ReadAt 4 2)]).size = 13 ∧
      (((newStore []).run [StoreCall.Append hello, StoreCall.Reading (ReadCall.Read 0),
        StoreCall.Reading (ReadCall.ReadAt 4 2)]).Append world).2.size = 26 :=
  ⟨(store_size_invariant [StoreCall.Append hello, StoreCall.Reading (ReadCall.Read 0),
      StoreCall.Reading (ReadCall.ReadAt 4 2)] world (by decide)).1,
    (store_size_invariant [StoreCall.Append hello, StoreCall.Reading (ReadCall.Read 0),
      StoreCall.Reading (ReadCall.ReadAt 4 2)] world (by decide)).2.2.2.2⟩

theorem File.ReadAt_short (data : List UInt8) (len off : Nat) (h : data.length < off + len)
    (h0 : 0 < len) (hb : off + len < 2 ^ 63) :
    File.ReadAt data len (off : Int) = ((data.drop off).take len, some Error.EOF) := by
  unfold File.ReadAt
  rw [if_neg (by omega), if_neg (by simp only [Int.toNat_ofNat]; omega)]
  simp only [Int.toNat_ofNat]
  rw [if_pos (by simp only [List.length_take, List.length_drop]; omega)]

theorem File.ReadAt_full (data : List UInt8) (len off : Nat) (h : off + len ≤ data.length)
    (hb : off + len < 2 ^ 63) :
    File.ReadAt data len (off : Int) = ((data.drop off).take len, none) := by
  unfold File.ReadAt
  rw [if_neg (by omega), if_neg (by simp only [Int.toNat_ofNat]; omega)]
  simp only [Int.toNat_ofNat]
  rw [if_neg (by simp only [List.length_take, List.length_drop]; omega)]

/-- The method `store.Read` is `store.ReadIn` with every allocation granted. -/
theorem store.Read_eq_ReadIn (s : store) (pos : Nat) :
    s.Read pos = s.ReadIn (fun _ => true) pos := by
  unfold store.Read store.ReadIn
  simp only [Bool.true_eq_false, or_false]

/-- C16 (amended). A read beyond the written data is rejected: for a store
whose flushed file has `L` bytes and a position `pos`, when `pos + 8 > L` and
`pos + 8` is below `2 ^ 63`, or when the length `n` read at `pos` has
`pos + 8 + n > L`, `pos + 8 + n` is below `2 ^ 63` and `make([]byte, n)`
returns, `Read(pos)` fails with end-of-data and returns no payload. -/
theorem store_read_beyond_data (mem : Nat → Bool) (s : store) (pos : Nat)
    (h : (s.File.length + s.buf.length < pos + lenWidth ∧ pos + lenWidth < 2 ^ 63) ∨
      (mem (Uint64 (((s.File ++ s.buf).drop pos).take lenWidth)) = true ∧
        s.File.length + s.buf.length
          < pos + lenWidth + Uint64 (((s.File ++ s.buf).drop pos).take lenWidth) ∧
        pos + lenWidth + Uint64 (((s.File ++ s.buf).drop pos).take lenWidth) < 2 ^ 63)) :
    (s.ReadIn mem pos).1 = Except.ok (none, some Error.EOF) := by
  have hlen : (s.File ++ s.buf).length = s.File.length + s.buf.length := List.length_append _ _
  have hw : lenWidth = 8 := rfl
  have hpos : pos + lenWidth < 2 ^ 63 := by
    rcases h with h | h
    · exact h.2
    · omega
  unfold store.ReadIn
  simp only [Writer.Flush_wr]
  rw [toInt64_of_lt pos (by omega)]
  by_cases hshort : s.File.length + s.buf.length < pos + lenWidth
  · rw [File.ReadAt_short _ _ _ (by rw [hlen]; exact hshort) (by decide) hpos]
  · rcases h with h | ⟨hm, hbig, hend⟩
    · exact absurd h.1 hshort
    · rw [File.ReadAt_full _ _ _ (by rw [hlen]; omega) hpos]
      simp only []
      rw [if_neg (by rw [hm]; simp only [Bool.true_eq_false, or_false]; omega),
        Nat.mod_eq_of_lt (by omega), toInt64_of_lt _ hpos,
        File.ReadAt_short _ _ _ (by rw [hlen]; omega) (by omega) hend]

/-- Witness of C16 (amended), with memory for 4096 bytes at most: a read at the
end of the data, and a read at position 8 after the append of nine bytes that
begin with the eight bytes of the length 9, of which one byte is in the file. -/
theorem store_read_beyond_data_witness :
    (store.ReadIn (fun n => decide (n ≤ 4096)) ((newStore []).Append hello).2 13).1
        = Except.ok (none, some Error.EOF) ∧
      (store.ReadIn (fun n => decide (n ≤ 4096))
          ((newStore []).Append [0, 0, 0, 0, 0, 0, 0, 9, 1]).2 8).1
        = Except.ok (none, some Error.EOF) :=
  ⟨store_read_beyond_data _ _ 13 (Or.inl (by decide)),
    store_read_beyond_data _ _ 8 (Or.inr (by decide))⟩

/-- C16 fails as stated. After the append of the eight bytes
`80 00 00 00 00 00 00 00` to an empty store the file has 16 bytes; the length
read at position 8 is `2 ^ 63`, past the end of the file, and `Read(8)` panics
in `make` where the claim has it return end-of-data. On an empty store,
`Read(2 ^ 63)` passes the offset `int64(pos) < 0` to `ReadAt` and returns the
error of a negative offset, which is not end-of-data.  After the append of
"hello", `Read(2 ^ 63 - 1)` is past the end of the file and returns `EINVAL`.
After the append of the eight bytes `40 00 00 00 00 00 00 00` the length read
at position 8 is `2 ^ 62`, and where `make` returns for `2 ^ 48` bytes at most,
`Read(8)` does not return. -/
theorem store_read_beyond_data_counterexample :
    ((newStore []).Append [128, 0, 0, 0, 0, 0, 0, 0]).2.File.length
        + ((newStore []).Append [128, 0, 0, 0, 0, 0, 0, 0]).2.buf.length = 16 ∧
      Uint64 [128, 0, 0, 0, 0, 0, 0, 0] = 2 ^ 63 ∧
      (((newStore []).Append [128, 0, 0, 0, 0, 0, 0, 0]).2.Read 8).1
        = Except.error Panic.makeslice ∧
      ((newStore []).Read (2 ^ 63)).1 = Except.ok (none, some Error.negativeOffset) ∧
      (((newStore []).Append hello).2.Read (2 ^ 63 - 1)).1
        = Except.ok (none, some Error.EINVAL) ∧
      (store.ReadIn (fun n => decide (n ≤ 2 ^ 48))
          ((newStore []).Append [64, 0, 0, 0, 0, 0, 0, 0]).2 8).1
        = Except.error Panic.makeslice := by
  decide

/-! ## The index: layout of an entry, capacity, errors, steps of `Close`, bounds, narrowing -/

/-- C13. Layout and frame of an index entry: on an index whose mapping (a Go
slice, so shorter than `2 ^ 63`) has room for twelve more bytes, `Write(off,
pos)` succeeds, stores the big-endian bytes of `off` in `[size, size + 4)` and
those of `pos` in `[size + 4, size + 12)`, advances the size by exactly 12,
keeps the length of the mapping and leaves every byte outside
`[size, size + 12)` as it was. -/
theorem index_write_layout (i : index) (off pos : Nat) (hl : i.mmap.length < 2 ^ 63)
    (h : i.size + entWidth ≤ i.mmap.length) :
    ∃ j, i.Write off pos = Except.ok (j, none) ∧ j.size = i.size + entWidth ∧
      j.mmap.length = i.mmap.length ∧
      (j.mmap.drop i.size).take offWidth = PutUint32 off ∧
      (j.mmap.drop (i.size + offWidth)).take posWidth = PutUint64 pos ∧
      ∀ k, k < i.size ∨ i.size + entWidth ≤ k → j.mmap[k]? = i.mmap[k]? := by
  have he : entWidth = 12 := rfl
  have ho : offWidth = 4 := rfl
  have hp : posWidth = 8 := rfl
  rw [he] at h ⊢
  rw [ho, hp]
  have hlen : (i.mmap.take i.size).length = i.size := by
    rw [List.length_take]
    omega
  have hlen4 : (i.mmap.take i.size ++ PutUint32 off).length = i.size + 4 := by
    rw [List.length_append, hlen, PutUint32_length]
  have hlen12 : (i.mmap.take i.size ++ (PutUint32 off ++ PutUint64 pos)).length
      = i.size + 12 := by
    rw [List.length_append, List.length_append, hlen, PutUint32_length, PutUint64_length]
  refine ⟨_, index.Write_ok i off pos h (by omega), rfl, ?_, ?_, ?_, ?_⟩
  · simp only [List.length_append, List.length_take, List.length_drop, PutUint32_length,
      PutUint64_length]
    omega
  · simp only []
    rw [List.append_assoc, List.drop_left' hlen, List.append_assoc]
    exact List.take_left' rfl
  · simp only []
    have e : i.mmap.take i.size ++ (PutUint32 off ++ PutUint64 pos) ++ i.mmap.drop (i.size + 12)
        = (i.mmap.take i.size ++ PutUint32 off) ++ (PutUint64 pos ++ i.mmap.drop (i.size + 12)) := by
      simp only [List.append_assoc]
    rw [e, List.drop_left' hlen4]
    exact List.take_left' rfl
  · intro k hk
    simp only []
    rcases hk with hk | hk
    · rw [List.append_assoc, List.getElem?_append_left (by omega),
        List.getElem?_take_of_lt hk]
    · rw [List.getElem?_append_right (by omega), hlen12, List.getElem?_drop]
      congr 1
      omega

/-- Witness of C13: the second entry of an index of capacity 24. -/
theorem index_write_layout_witness :
    ∃ j, index.Write { mmap := entriesBytes [(7, 99)] ++ List.replicate 12 0, size := 12 } 1 13
        = Except.ok (j, none) ∧ j.size = 12 + entWidth ∧ j.mmap.length = 24 ∧
      (j.mmap.drop 12).take offWidth = PutUint32 1 ∧
      (j.mmap.drop (12 + offWidth)).take posWidth = PutUint64 13 ∧
      ∀ k, k < 12 ∨ 12 + entWidth ≤ k →
        j.mmap[k]? = (entriesBytes [(7, 99)] ++ List.replicate 12 0)[k]? :=
  index_write_layout { mmap := entriesBytes [(7, 99)] ++ List.replicate 12 0, size := 12 } 1 13
    (by decide) (by decide)

/-- C14. The capacity bounds the number of entries: on an index made on an
empty file with the capacity `c` (a `uint64`), the first `c / 12` calls of
`Write` succeed and leave the size at `12 * (c / 12)`; from then on every
`Write` fails and leaves the index as it is.  With `c = 24`: `Write(0, 0)` and
`Write(1, 13)` succeed, `Write(2, 26)` fails and the size remains 24. -/
theorem index_capacity_entries (c : Nat) (i0 : index) (ps : List (Nat × Nat)) (hc : c < 2 ^ 64)
    (h0 : newIndex [] c = Except.ok i0) (hps : ps.length = c / entWidth) :
    (∃ j, i0.WriteAll ps = Except.ok (j, none) ∧ j.size = entWidth * (c / entWidth) ∧
      (∀ off pos, j.Write off pos = Except.ok (j, some Error.EOF)) ∧
      (∀ k, index.ReachableFrom j k → k = j)) ∧
    (∃ a b d, newIndex [] 24 = Except.ok a ∧ a.Write 0 0 = Except.ok (b, none) ∧
      b.Write 1 13 = Except.ok (d, none) ∧ d.Write 2 26 = Except.ok (d, some Error.EOF) ∧
      d.size = 24) := by
  refine ⟨?_, _, _, _, rfl, rfl, rfl, by decide, by decide⟩
  obtain ⟨_, hc63, rfl⟩ := newIndex_inv [] c i0 h0
  rw [Nat.mod_eq_of_lt hc] at hc63
  have he : entWidth = 12 := rfl
  rw [he] at hps ⊢
  obtain ⟨j, hj⟩ := index.WriteAll_ok ps
    { mmap := truncate [] (c % 2 ^ 64), size := ([] : List UInt8).length % 2 ^ 64 }
    (by
      simp only [truncate_length, List.length_nil, Nat.zero_mod, Nat.mod_eq_of_lt hc, hps]
      omega)
    (by simp only [truncate_length, Nat.mod_eq_of_lt hc]; exact hc63)
  obtain ⟨h1, _, _, h4⟩ := index.WriteAll_spec ps _ j [] rfl (List.take_zero _) (Nat.zero_le _)
    (by simp only [truncate_length, Nat.mod_eq_of_lt hc]; exact hc63) hj
  simp only [List.nil_append, truncate_length, Nat.mod_eq_of_lt hc] at h1 h4
  have hfull : ∀ off pos, j.Write off pos = Except.ok (j, some Error.EOF) :=
    fun off pos => index.Write_full j off pos (by omega) (by omega)
  refine ⟨j, hj, by omega, hfull, ?_⟩
  intro k hk
  induction hk with
  | refl => rfl
  | write a b off pos e _ hw ih =>
    subst ih
    rw [hfull off pos] at hw
    injection hw with hw
    injection hw with hw _
    exact hw.symm

/-- Witness of C14: capacity 40, three entries. -/
theorem index_capacity_entries_witness :
    ∃ j, index.WriteAll { mmap := List.replicate 40 0, size := 0 } [(0, 0), (1, 13), (2, 26)]
        = Except.ok (j, none) ∧ j.size = entWidth * (40 / entWidth) ∧
      (∀ off pos, j.Write off pos = Except.ok (j, some Error.EOF)) ∧
      (∀ k, index.ReachableFrom j k → k = j) :=
  (index_capacity_entries 40 { mmap := List.replicate 40 0, size := 0 }
    [(0, 0), (1, 13), (2, 26)] (by decide) (by decide) (by decide)).1

/-- C15 (amended). The error kinds: the error that `Write` returns when the
capacity is exhausted and the error that `Read` returns for an empty index or
an entry out of range are one and the same value, `io.EOF`; that value differs
from the errors of a failing system call. -/
theorem index_error_kinds (i j k : index) (off pos : Nat) (inp : Int) (out p : Nat)
    (e1 e2 : Error) (hw : i.Write off pos = Except.ok (j, some e1))
    (hr : k.Read inp = Except.ok (out, p, some e2)) :
    e1 = Error.EOF ∧ e2 = Error.EOF ∧ e1 = e2 ∧ e1 ≠ Error.EINVAL ∧
      e1 ≠ Error.negativeOffset := by
  have h1 : e1 = Error.EOF := by
    unfold index.Write at hw
    split at hw
    · cases hw
      rfl
    · split at hw
      · cases hw
      · simp only [] at hw
        split at hw
        · cases hw
        · cases hw
  have h2 : e2 = Error.EOF := by
    rw [index.Read_eq] at hr
    by_cases hz : k.size = 0
    · rw [if_pos hz] at hr
      cases hr
      rfl
    · rw [if_neg hz] at hr
      by_cases hb : k.size < k.entryNumber inp * 12 + 12
      · rw [if_pos hb] at hr
        cases hr
        rfl
      · rw [if_neg hb] at hr
        split at hr
        · cases hr
        · cases hr
  subst h1 h2
  exact ⟨rfl, rfl, rfl, by decide, by decide⟩

/-- Witness of C15 (amended): a full index of capacity 12 and an empty index. -/
theorem index_error_kinds_witness :
    index.Write { mmap := entriesBytes [(7, 99)], size := 12 } 1 13
        = Except.ok ({ mmap := entriesBytes [(7, 99)], size := 12 }, some Error.EOF) ∧
      index.Read { mmap := List.replicate 12 0, size := 0 } 0
        = Except.ok (0, 0, some Error.EOF) ∧
      Error.EOF ≠ Error.EINVAL :=
  ⟨by decide, by decide,
    (index_error_kinds { mmap := entriesBytes [(7, 99)], size := 12 }
      { mmap := entriesBytes [(7, 99)], size := 12 } { mmap := List.replicate 12 0, size := 0 }
      1 13 0 0 0 Error.EOF Error.EOF (by decide) (by decide)).2.2.2.1⟩

/-- C15 fails as stated: on an index of capacity 12 that holds one entry,
`Write` fails for want of capacity with the error `io.EOF`, and `Read(1)` on
the same index fails for an entry out of range with the error `io.EOF`: the
two error values are equal. -/
theorem index_error_kinds_counterexample :
    ∃ e1 e2, index.Write { mmap := entriesBytes [(7, 99)], size := 12 } 1 13
        = Except.ok ({ mmap := entriesBytes [(7, 99)], size := 12 }, some e1) ∧
      index.Read { mmap := entriesBytes [(7, 99)], size := 12 } 1
        = Except.ok (0, 0, some e2) ∧ e1 = e2 :=
  ⟨Error.EOF, Error.EOF, by decide, by decide, rfl⟩

/-- C18. The order of the steps of `index.Close`: whatever each call returns,
`Close` makes its calls in the order mapping sync, file sync, truncate to the
size, close of the file, and stops at the first call that fails: every call
before the last one made succeeded, the error returned is that of the last
call made, fewer than four calls are made only after a failure, and the
truncate is made only when both syncs succeeded. -/
theorem index_close_order (i : index) (env : CloseStep → Option Error) :
    (i.CloseSteps env).1 <+: [CloseStep.mmapSync, CloseStep.fileSync,
        CloseStep.fileTruncate (toInt64 i.size), CloseStep.fileClose] ∧
      (∀ st ∈ (i.CloseSteps env).1.dropLast, env st = none) ∧
      (∃ st, (i.CloseSteps env).1.getLast? = some st ∧ (i.CloseSteps env).2 = env st) ∧
      ((i.CloseSteps env).1.length < 4 → (i.CloseSteps env).2 ≠ none) ∧
      (CloseStep.fileTruncate (toInt64 i.size) ∈ (i.CloseSteps env).1 →
        env CloseStep.mmapSync = none ∧ env CloseStep.fileSync = none) := by
  unfold index.CloseSteps
  rcases h1 : env CloseStep.mmapSync with _ | e1
  · rcases h2 : env CloseStep.fileSync with _ | e2
    · rcases h3 : env (CloseStep.fileTruncate (toInt64 i.size)) with _ | e3
      · refine ⟨List.prefix_refl _, ?_, ⟨CloseStep.fileClose, rfl, rfl⟩, ?_, fun _ => ⟨rfl, rfl⟩⟩
        · intro st hst
          simp only [List.dropLast, List.mem_cons, List.mem_singleton] at hst
          rcases hst with rfl | rfl | rfl | hst
          · exact h1
          · exact h2
          · exact h3
          · cases hst
        · intro hlt
          simp only [List.length_cons, List.length_nil] at hlt
          omega
      · refine ⟨⟨[CloseStep.fileClose], rfl⟩, ?_, ⟨_, rfl, h3.symm⟩, fun _ => by simp,
          fun _ => ⟨rfl, rfl⟩⟩
        intro st hst
        simp only [List.dropLast, List.mem_cons, List.mem_singleton] at hst
        rcases hst with rfl | rfl | hst
        · exact h1
        · exact h2
        · cases hst
    · refine ⟨⟨[CloseStep.fileTruncate (toInt64 i.size), CloseStep.fileClose], rfl⟩, ?_,
        ⟨_, rfl, h2.symm⟩, fun _ => by simp, ?_⟩
      · intro st hst
        simp only [List.dropLast, List.mem_cons, List.mem_singleton] at hst
        rcases hst with rfl | hst
        · exact h1
        · cases hst
      · intro hmem
        simp at hmem
  · refine ⟨⟨[CloseStep.fileSync, CloseStep.fileTruncate (toInt64 i.size),
        CloseStep.fileClose], rfl⟩, ?_, ⟨_, rfl, h1.symm⟩, fun _ => by simp, ?_⟩
    · intro st hst
      simp [List.dropLast] at hst
    · intro hmem
      simp at hmem

/-- C19. Bounds safety of the index: on an index whose size is at most the
length of the mapping (a Go slice, so shorter than `2 ^ 63`), `Read` of every
argument and `Write` of every pair return without a panic: no slice of the
mapping is out of range; the entry that a successful `Read` decodes and the
entry that a successful `Write` stores lie within the mapping. -/
theorem index_bounds_safety (i : index) (hl : i.mmap.length < 2 ^ 63)
    (hs : i.size ≤ i.mmap.length) :
    (∀ inp, ∃ r, i.Read inp = Except.ok r) ∧
      (∀ off pos, ∃ r, i.Write off pos = Except.ok r) ∧
      (∀ inp out pos, i.Read inp = Except.ok (out, pos, none) →
        i.entryNumber inp * entWidth + entWidth ≤ i.mmap.length) ∧
      (∀ off pos j, i.Write off pos = Except.ok (j, none) →
        i.size + entWidth ≤ i.mmap.length) := by
  have he : entWidth = 12 := rfl
  rw [he]
  refine ⟨?_, ?_, ?_, ?_⟩
  · intro inp
    rw [index.Read_eq]
    by_cases hz : i.size = 0
    · exact ⟨_, by rw [if_pos hz]⟩
    · rw [if_neg hz]
      by_cases hb : i.size < i.entryNumber inp * 12 + 12
      · exact ⟨_, by rw [if_pos hb]⟩
      · rw [if_neg hb, slice_ok _ _ _ (by omega) (by omega),
          slice_ok _ _ _ (by omega) (by omega)]
        exact ⟨_, rfl⟩
  · intro off pos
    by_cases hroom : i.size + 12 ≤ i.mmap.length
    · exact ⟨_, index.Write_ok i off pos hroom (by omega)⟩
    · exact ⟨_, index.Write_full i off pos (by omega) (by omega)⟩
  · intro inp out pos hr
    rw [index.Read_eq] at hr
    by_cases hz : i.size = 0
    · rw [if_pos hz] at hr
      cases hr
    · rw [if_neg hz] at hr
      by_cases hb : i.size < i.entryNumber inp * 12 + 12
      · rw [if_pos hb] at hr
        cases hr
      · omega
  · intro off pos j hw
    by_cases hroom : i.size + 12 ≤ i.mmap.length
    · exact hroom
    · rw [index.Write_full i off pos (by omega) (by omega)] at hw
      cases hw

/-- Witness of C19: an index of capacity 24 that holds one entry. -/
theorem index_bounds_safety_witness :
    (∃ r, index.Read { mmap := entriesBytes [(7, 99)] ++ List.replicate 12 0, size := 12 } 1
        = Except.ok r) ∧
      (∃ r, index.Write { mmap := entriesBytes [(7, 99)] ++ List.replicate 12 0, size := 12 } 1 13
        = Except.ok r) :=
  ⟨(index_bounds_safety { mmap := entriesBytes [(7, 99)] ++ List.replicate 12 0, size := 12 }
      (by decide) (by decide)).1 1,
    (index_bounds_safety { mmap := entriesBytes [(7, 99)] ++ List.replicate 12 0, size := 12 }
      (by decide) (by decide)).2.1 1 13⟩

/-- C20. `index.Read` narrows its argument to 32 bits: for every index and
every argument other than `-1`, `Read(in)` returns what `Read(in mod 2 ^ 32)`
returns, with `in mod 2 ^ 32` in `[0, 2 ^ 32)`, and the entry number is
`in mod 2 ^ 32`.  The value `-1` itself is not narrowed: on an index that
holds one entry `Read(-1)` returns that entry while `Read(2 ^ 32 - 1)` fails
with end-of-data. -/
theorem index_read_narrows (i : index) (inp : Int) (h : inp ≠ -1) :
    i.Read inp = i.Read (inp % 2 ^ 32) ∧ 0 ≤ inp % 2 ^ 32 ∧ inp % 2 ^ 32 < 2 ^ 32 ∧
      i.entryNumber inp = (inp % 2 ^ 32).toNat ∧
      index.Read { mmap := entriesBytes [(7, 99)], size := 12 } (-1)
        = Except.ok (7, 99, none) ∧
      index.Read { mmap := entriesBytes [(7, 99)], size := 12 } 4294967295
        = Except.ok (0, 0, some Error.EOF) := by
  have h1 : 0 ≤ inp % 2 ^ 32 := Int.emod_nonneg _ (by norm_num)
  have h2 : inp % 2 ^ 32 < 2 ^ 32 := Int.emod_lt_of_pos _ (by norm_num)
  have hn : i.entryNumber inp = (inp % 2 ^ 32).toNat := by
    unfold index.entryNumber
    rw [if_neg h]
    rfl
  have hm : i.entryNumber (inp % 2 ^ 32) = (inp % 2 ^ 32).toNat := by
    unfold index.entryNumber
    rw [if_neg (by omega)]
    unfold int64ToUint32
    rw [Int.emod_emod_of_dvd _ (dvd_refl _)]
  refine ⟨?_, h1, h2, hn, by decide, by decide⟩
  rw [index.Read_eq i inp, index.Read_eq i (inp % 2 ^ 32), hm, hn]

/-- Witness of C20: `Read(2 ^ 32 + 1)` and `Read(1)` on an index of two entries. -/
theorem index_read_narrows_witness :
    index.Read { mmap := entriesBytes [(7, 99), (1, 13)], size := 24 } 4294967297
      = index.Read { mmap := entriesBytes [(7, 99), (1, 13)], size := 24 } (4294967297 % 2 ^ 32) :=
  (index_read_narrows { mmap := entriesBytes [(7, 99), (1, 13)], size := 24 } 4294967297
    (by decide)).1

end proglog
